import Mathlib

/-!
Verification of the k2d filesystem-backed ConfigMap store
(`internal/adapter/store/filesystem/configmap.go`).

Strings are shallowly embedded as lists of characters (`S`), so that Go's
string concatenation in `fmt.Sprintf` becomes list append.  The store
directory is a list of files; each file carries its name, its content and
its modification time.  Helper packages of the repository that are not
part of the provided sources (`pkg/strings`, `pkg/filesystem`,
`pkg/maputils` and the constants file declaring `ConfigMapSeparator`,
`FilePathAnnotationKey` and `NamespaceNameLabelKey`) are modelled from the
spec; each such definition is marked `Modelled from the spec:` in its doc
comment.
-/

namespace K2d

/-- Byte strings, embedded as lists of characters. -/
abbrev S := List Char

/-- Go `strings.HasPrefix s pfx`. -/
def hasPrefix : S → S → Bool
  | _, [] => true
  | [], _ :: _ => false
  | c :: s, d :: p => c == d && hasPrefix s p

/-- Go `strings.TrimPrefix s pfx`. -/
def trimPrefix (s pfx : S) : S :=
  if hasPrefix s pfx then s.drop pfx.length else s

/-- Go `strings.HasSuffix s sfx`. -/
def hasSuffix (s sfx : S) : Bool :=
  hasPrefix s.reverse sfx.reverse

/-- Dash character as a one-character string. -/
def dashS : S := ("-").data

/-- Slash character as a one-character string. -/
def slashS : S := ("/").data

/-- Modelled from the spec: the fixed multi-character separator token used
between the `namespace-name` part and the per-key part of a data file name
(`internal/adapter/store/filesystem` constant `ConfigMapSeparator`, absent
from the provided sources; value taken from the naming convention comment
`[namespace]-[configmap-name]-k2dcm-[key]` in `configmap.go`). -/
def ConfigMapSeparator : S := ("-k2dcm-").data

/-- The metadata-file suffix appended to `namespace-name`, from the naming
convention comment `[namespace]-[configmap-name]-k2dcm.metadata`. -/
def MetadataSuffix : S := ("-k2dcm.metadata").data

/-- The plain `.metadata` suffix used by `GetConfigMaps` to drop
metadata-file entries. -/
def dotMetadataS : S := (".metadata").data

/-- Modelled from the spec: the reserved path-annotation key carried by
bind annotations (constant `FilePathAnnotationKey`, absent from the
provided sources; value from the comment `store.k2d.io/filesystem/path/*`
in `configmap.go`). -/
def FilePathAnnotationKey : S := ("store.k2d.io/filesystem/path").data

/-- Modelled from the spec: the injected label key recording the owning
namespace of a stored resource (constant `NamespaceNameLabelKey`, absent
from the provided sources). -/
def NamespaceNameLabelKey : S := ("namespace.k2d.io/name").data

/-- `buildConfigMapMetadataFileName` from `configmap.go`:
`fmt.Sprintf("%s-%s-k2dcm.metadata", namespace, configMapName)`. -/
def buildConfigMapMetadataFileName (configMapName nspace : S) : S :=
  nspace ++ dashS ++ configMapName ++ MetadataSuffix

/-- `buildConfigMapFilePrefix` from `configmap.go`:
`fmt.Sprintf("%s-%s%s", namespace, configMapName, ConfigMapSeparator)`. -/
def buildConfigMapFilePrefix (configMapName nspace : S) : S :=
  nspace ++ dashS ++ configMapName ++ ConfigMapSeparator

/-- Content of an on-disk file.  Data files hold a raw payload; the
serialized form of a metadata file (Metadata Codec) is abstracted as the
label map it encodes, per the spec's `serializes/deserializes a resource's
label set to/from a dedicated side file`. -/
inductive FileContent
  | data (payload : S)
  | meta (labels : List (S × S))
  deriving DecidableEq

/-- A directory entry: file name, content, and modification time
(`os.Stat(...).ModTime()` is modelled as a natural number). -/
structure FsFile where
  name : S
  content : FileContent
  mt : Nat
  deriving DecidableEq

/-- The store directory, in enumeration order of `os.ReadDir`. -/
abbrev Dir := List FsFile

/-- Error taxonomy of the store (spec section 7): the distinguished
NotFound kind (`errors.ErrResourceNotFound`), filesystem failures, and
metadata deserialization failures. -/
inductive StoreErr
  | resourceNotFound
  | ioFailure
  | encodingFailure
  deriving DecidableEq

/-- Raw bytes returned by `os.ReadFile`.  For a metadata file the
serialized byte form is abstracted and never relied upon. -/
def contentBytes : FileContent → S
  | .data payload => payload
  | .meta _ => []

/-- Go map read `m[k]` (returning the zero value `""` when absent is the
caller's concern; here the lookup itself). -/
def mapLookup (m : List (S × S)) (k : S) : Option S :=
  (m.find? (fun p => p.1 == k)).map (·.2)

/-- Go map write `m[k] = v`: replace the binding if the key is present,
otherwise add it. -/
def mapInsert (m : List (S × S)) (k v : S) : List (S × S) :=
  if m.any (fun p => p.1 == k) then
    m.map (fun p => if p.1 == k then (k, v) else p)
  else m ++ [(k, v)]

/-- Modelled from the spec: `maputils.MergeMapsInPlace(dst, src)` (absent
from the provided sources) copies every binding of `src` into `dst`,
overwriting existing keys. -/
def MergeMapsInPlace (dst src : List (S × S)) : List (S × S) :=
  src.foldl (fun d p => mapInsert d p.1 p.2) dst

/-- Look a file up by name in the directory. -/
def findFile : Dir → S → Option FsFile
  | [], _ => none
  | f :: rest, n => if f.name = n then some f else findFile rest n

/-- Modelled from the spec: `filesystem.LoadMetadataFromDisk` (absent from
the provided sources) deserializes the label map held by the named
metadata file; a missing file is a filesystem failure, a file that does
not deserialize is an encoding failure. -/
def LoadMetadataFromDisk (dir : Dir) (fileName : S) : Except StoreErr (List (S × S)) :=
  match findFile dir fileName with
  | none => .error .ioFailure
  | some f =>
    match f.content with
    | .meta m => .ok m
    | .data _ => .error .encodingFailure

/-- Write a file, overwriting a pre-existing file of the same name. -/
def writeFile (dir : Dir) (n : S) (c : FileContent) (now : Nat) : Dir :=
  if dir.any (fun f => f.name == n) then
    dir.map (fun f => if f.name = n then ⟨n, c, now⟩ else f)
  else dir ++ [⟨n, c, now⟩]

/-- Modelled from the spec: `filesystem.StoreMetadataOnDisk` (absent from
the provided sources) serializes the label map into the named metadata
file, overwriting it. -/
def StoreMetadataOnDisk (dir : Dir) (fileName : S) (labels : List (S × S)) (now : Nat) : Dir :=
  writeFile dir fileName (.meta labels) now

/-- Modelled from the spec: `filesystem.StoreDataMapOnDisk` (absent from
the provided sources) writes one data file per key of the data map, named
`filePrefix + key`, overwriting any pre-existing file of the same name. -/
def StoreDataMapOnDisk (dir : Dir) (filePrefix : S) (dataMap : List (S × S)) (now : Nat) : Dir :=
  dataMap.foldl (fun d p => writeFile d (filePrefix ++ p.1) (.data p.2) now) dir

/-- Go `os.Remove`: fails when the underlying filesystem reports an error
(the `failRemove` oracle models such external failures) or when no file of
that name exists. -/
def osRemove (failRemove : S → Bool) (dir : Dir) (n : S) : Except StoreErr Dir :=
  if failRemove n then .error .ioFailure
  else if dir.any (fun f => f.name == n) then
    .ok (dir.filter (fun f => !(f.name == n)))
  else .error .ioFailure

/-- The removal loop of `DeleteConfigMap`: remove the named files in
order, aborting with the failure of the first removal that fails. -/
def removeFiles (failRemove : S → Bool) : List S → Dir → Except StoreErr Unit × Dir
  | [], dir => (.ok (), dir)
  | n :: rest, dir =>
    match osRemove failRemove dir n with
    | .error e => (.error e, dir)
    | .ok dir1 => removeFiles failRemove rest dir1

/-- `DeleteConfigMap` from `configmap.go`: list the directory, require at
least one file matching the derived prefix (else NotFound), remove the
metadata file, then remove every file of the original listing matching the
prefix.  Returns the operation result together with the directory state
after the call. -/
def DeleteConfigMap (failRemove : S → Bool) (dir : Dir) (configMapName nspace : S) :
    Except StoreErr Unit × Dir :=
  let filePrefix := buildConfigMapFilePrefix configMapName nspace
  if dir.any (fun f => hasPrefix f.name filePrefix) then
    match osRemove failRemove dir (buildConfigMapMetadataFileName configMapName nspace) with
    | .error e => (.error e, dir)
    | .ok dir1 =>
      removeFiles failRemove ((dir.filter (fun f => hasPrefix f.name filePrefix)).map (·.name)) dir1
  else (.error .resourceNotFound, dir)

/-- The materialized resource object returned by reads (the fields of
`core.ConfigMap` that the store reads or writes). -/
structure ConfigMap where
  name : S
  nspace : S
  labels : List (S × S)
  annots : List (S × S)
  data : List (S × S)
  creationTimestamp : Option Nat
  deriving DecidableEq

/-- Go `path.Join(dir, name)` for a clean directory path and a clean
relative file name. -/
def pathJoin (dir n : S) : S := dir ++ slashS ++ n

/-- Body of the per-file loop of `GetConfigMap`: for a file matching the
derived prefix, record its content under the key recovered from its name,
record its modification time as the creation timestamp (last file wins),
and synthesize the path annotation pointing at the file's absolute
path. -/
def getStep (storePath filePrefix : S) (cm : ConfigMap) (f : FsFile) : ConfigMap :=
  if hasPrefix f.name filePrefix then
    { cm with
      data := mapInsert cm.data (trimPrefix f.name filePrefix) (contentBytes f.content)
      creationTimestamp := some f.mt
      annots := mapInsert cm.annots
        (FilePathAnnotationKey ++ slashS ++ trimPrefix f.name filePrefix)
        (pathJoin storePath f.name) }
  else cm

/-- `GetConfigMap` from `configmap.go`.  `storePath` is the store's
`configMapPath`; `dir` is the result of `os.ReadDir` on it. -/
def GetConfigMap (storePath : S) (dir : Dir) (configMapName nspace : S) :
    Except StoreErr ConfigMap :=
  let filePrefix := buildConfigMapFilePrefix configMapName nspace
  if dir.any (fun f => hasPrefix f.name filePrefix) then
    match LoadMetadataFromDisk dir (buildConfigMapMetadataFileName configMapName nspace) with
    | .error e => .error e
    | .ok metadata =>
      .ok (dir.foldl (getStep storePath filePrefix)
        ⟨configMapName, nspace, metadata, [], [], none⟩)
  else .error .resourceNotFound

/-- `StoreConfigMap` from `configmap.go`: inject the owning-namespace
label, write the metadata file, then write one data file per key. -/
def StoreConfigMap (dir : Dir) (nm nspace : S) (cmLabels cmData : List (S × S)) (now : Nat) : Dir :=
  let labels := MergeMapsInPlace [(NamespaceNameLabelKey, nspace)] cmLabels
  let dir1 := StoreMetadataOnDisk dir (buildConfigMapMetadataFileName nm nspace) labels now
  StoreDataMapOnDisk dir1 (buildConfigMapFilePrefix nm nspace) cmData now

/-- The part of a string before its first occurrence of `sep` (the whole
string when `sep` does not occur): Go `strings.Split(s, sep)[0]`. -/
def takeBefore (sep : S) : S → S
  | [] => []
  | c :: rest => if hasPrefix (c :: rest) sep then [] else c :: takeBefore sep rest

/-- Deduplication keeping first occurrences, with an accumulator of values
already seen. -/
def dedupSeen (seen : List S) : List S → List S
  | [] => []
  | x :: xs => if seen.contains x then dedupSeen seen xs else x :: dedupSeen (x :: seen) xs

/-- Modelled from the spec: `str.UniquePrefixes` (absent from the provided
sources) reduces the file names to the set of unique `namespace-name`
strings using the separator token as the split point. -/
def UniquePrefixes (names : List S) (sep : S) : List S :=
  dedupSeen [] (names.map (takeBefore sep))

/-- Modelled from the spec: `str.FilterStringsByPrefix` (absent from the
provided sources) keeps the strings that start with the given string, per
its name and the namespace filter of the spec's listing algorithm. -/
def FilterStringsByPrefix (items : List S) (pfx : S) : List S :=
  items.filter (fun s => hasPrefix s pfx)

/-- Modelled from the spec: `str.RemoveItemsWithSuffix` (absent from the
provided sources) drops the strings that end with the given suffix. -/
def RemoveItemsWithSuffix (items : List S) (sfx : S) : List S :=
  items.filter (fun s => !hasSuffix s sfx)

/-- Body of the per-file loop of `GetConfigMaps` (identical to the
`GetConfigMap` loop except that no path annotation is synthesized). -/
def listStep (filePrefix : S) (cm : ConfigMap) (f : FsFile) : ConfigMap :=
  if hasPrefix f.name filePrefix then
    { cm with
      data := mapInsert cm.data (trimPrefix f.name filePrefix) (contentBytes f.content)
      creationTimestamp := some f.mt }
  else cm

/-- One iteration of the listing loop of `GetConfigMaps`: load the
metadata file derived from the unique `namespace-name` entry, recover the
namespace from the injected label (`""` when absent) and the name by
trimming, then accumulate the matching data files. -/
def buildListItem (dir : Dir) (entryName : S) : Except StoreErr ConfigMap :=
  match LoadMetadataFromDisk dir (entryName ++ MetadataSuffix) with
  | .error e => .error e
  | .ok metadata =>
    let nspace := (mapLookup metadata NamespaceNameLabelKey).getD []
    let nm := trimPrefix entryName (nspace ++ dashS)
    let filePrefix := buildConfigMapFilePrefix nm nspace
    .ok (dir.foldl (listStep filePrefix) ⟨nm, nspace, metadata, [], [], none⟩)

/-- The listing loop of `GetConfigMaps`: any per-resource failure aborts
the whole listing. -/
def buildListItems (dir : Dir) : List S → Except StoreErr (List ConfigMap)
  | [] => .ok []
  | n :: rest =>
    match buildListItem dir n with
    | .error e => .error e
    | .ok cm =>
      match buildListItems dir rest with
      | .error e => .error e
      | .ok cms => .ok (cm :: cms)

/-- `GetConfigMaps` from `configmap.go`: derive the unique
`namespace-name` entries from the listing, filter them by the requested
namespace, drop metadata-file entries, and build one resource per
remaining entry. -/
def GetConfigMaps (dir : Dir) (nspace : S) : Except StoreErr (List ConfigMap) :=
  let fileNames := dir.map (·.name)
  let u1 := UniquePrefixes fileNames ConfigMapSeparator
  let u2 := FilterStringsByPrefix u1 nspace
  let u3 := RemoveItemsWithSuffix u2 dotMetadataS
  buildListItems dir u3

/-- `GetConfigMapBinds` from `configmap.go`: from the resource's
annotation map, collect every annotation carrying the reserved path
prefix, mapping the data key (annotation key with the prefix and slash
trimmed) to the host path (annotation value).  The error of the returned
pair is always `none`, matching the function's unconditional `nil`. -/
def GetConfigMapBinds (cm : ConfigMap) : List (S × S) × Option StoreErr :=
  (cm.annots.foldl
    (fun binds p =>
      if hasPrefix p.1 FilePathAnnotationKey then
        mapInsert binds (trimPrefix p.1 (FilePathAnnotationKey ++ slashS)) p.2
      else binds)
    [], none)

/-! ## Stored-resource abstraction

A stored resource describes one on-disk file group exactly as
`StoreConfigMap` lays it out: one metadata file holding the label map with
the injected namespace label, and one data file per key. -/

/-- One data-map entry as laid out on disk: key, payload, and the
modification time of its file. -/
structure DEntry where
  key : S
  val : S
  mt : Nat
  deriving DecidableEq

/-- A resource's identity, labels and data entries, together with the
modification time of its metadata file. -/
structure StoredResource where
  nm : S
  ns : S
  labels : List (S × S)
  entries : List DEntry
  mt0 : Nat
  deriving DecidableEq

/-- The `namespace-name` string of a resource (the unique entry recovered
by the listing). -/
def gOf (r : StoredResource) : S := r.ns ++ dashS ++ r.nm

/-- The resource's data-file name stem. -/
def pfxOf (r : StoredResource) : S := buildConfigMapFilePrefix r.nm r.ns

/-- The resource's metadata file name. -/
def metaNameOf (r : StoredResource) : S := buildConfigMapMetadataFileName r.nm r.ns

/-- The label map as the store writes it: user labels merged over the
injected namespace label. -/
def storedLabelsOf (r : StoredResource) : List (S × S) :=
  MergeMapsInPlace [(NamespaceNameLabelKey, r.ns)] r.labels

/-- The data files of a resource, in data-map order. -/
def dataFilesOf (p : S) (es : List DEntry) : List FsFile :=
  es.map (fun e => ⟨p ++ e.key, .data e.val, e.mt⟩)

/-- The on-disk file group of a resource: metadata file first, then the
data files. -/
def filesOf (r : StoredResource) : Dir :=
  ⟨metaNameOf r, .meta (storedLabelsOf r), r.mt0⟩ :: dataFilesOf (pfxOf r) r.entries

/-- A directory holding the file groups of the given resources. -/
def mkState (rs : List StoredResource) : Dir := (rs.map filesOf).flatten

/-- The annotation key synthesized for a data key. -/
def pathAnnKey (k : S) : S := FilePathAnnotationKey ++ slashS ++ k

/-- The creation timestamp reported after scanning the given entries
(modification time of the last data file scanned, last one wins). -/
def tsOf (es : List DEntry) (t0 : Option Nat) : Option Nat :=
  es.foldl (fun _ e => some e.mt) t0

/-- The resource object `GetConfigMap` materializes for a stored
resource. -/
def getItemOf (storePath : S) (r : StoredResource) : ConfigMap :=
  ⟨r.nm, r.ns, storedLabelsOf r,
    r.entries.map (fun e => (pathAnnKey e.key, pathJoin storePath (pfxOf r ++ e.key))),
    r.entries.map (fun e => (e.key, e.val)),
    tsOf r.entries none⟩

/-- The resource object one `GetConfigMaps` iteration materializes for a
stored resource: the same fields except that no path annotations are
synthesized. -/
def listItemOf (r : StoredResource) : ConfigMap :=
  ⟨r.nm, r.ns, storedLabelsOf r, [],
    r.entries.map (fun e => (e.key, e.val)),
    tsOf r.entries none⟩

/-- Boolean key-distinctness of a list of strings. -/
def nodupB : List S → Bool
  | [] => true
  | x :: xs => !(xs.contains x) && nodupB xs

/-- Validity of one resource: the preconditions the spec's naming codec
imposes on callers (section 4.1), phrased on the derived strings: data
entries are nonempty with distinct keys, the separator token first occurs
in a data file name exactly at the end of the stem, the metadata file name
has no earlier separator occurrence, the `namespace-name` entry does not
itself look like a metadata entry, and the user labels have distinct keys
and do not use the reserved namespace label key. -/
def validRB (r : StoredResource) : Bool :=
  !(r.entries.isEmpty)
  && nodupB (r.entries.map (·.key))
  && r.entries.all (fun e => takeBefore ConfigMapSeparator (gOf r ++ ConfigMapSeparator ++ e.key) == gOf r)
  && (takeBefore ConfigMapSeparator (gOf r ++ MetadataSuffix) == gOf r ++ MetadataSuffix)
  && !(hasSuffix (gOf r) dotMetadataS)
  && nodupB (r.labels.map (·.1))
  && (mapLookup r.labels NamespaceNameLabelKey).isNone

/-- Validity of a pair of distinct resources: their data-file stems are
incomparable and neither metadata file name starts with the other
resource's stem. -/
def pairOKB (r r' : StoredResource) : Bool :=
  !(hasPrefix (pfxOf r') (pfxOf r)) && !(hasPrefix (pfxOf r) (pfxOf r'))
  && !(hasPrefix (metaNameOf r') (pfxOf r)) && !(hasPrefix (metaNameOf r) (pfxOf r'))

/-- Validity of a whole store state: every resource valid and every pair
of resources valid. -/
def validListB : List StoredResource → Bool
  | [] => true
  | r :: rest => validRB r && rest.all (fun r' => pairOKB r r') && validListB rest

/-- A resource as laid out by a single `StoreConfigMap` call at time `t`. -/
def mkRes (nm ns : S) (L D : List (S × S)) (t : Nat) : StoredResource :=
  ⟨nm, ns, L, D.map (fun q => ⟨q.1, q.2, t⟩), t⟩

/-- Mirror of a data-file overwrite on the entry list: replace the entry
of the key in place, or add a new entry at the end. -/
def entryInsert (es : List DEntry) (k v : S) (t : Nat) : List DEntry :=
  if es.any (fun e => e.key == k) then
    es.map (fun e => if e.key = k then ⟨k, v, t⟩ else e)
  else es ++ [⟨k, v, t⟩]

/-- The entry list after overwriting a whole data map at time `t`. -/
def mergeEntries (es : List DEntry) (dm : List (S × S)) (t : Nat) : List DEntry :=
  dm.foldl (fun acc q => entryInsert acc q.1 q.2 t) es

/-- The data map encoded by an entry list. -/
def dataOf (es : List DEntry) : List (S × S) := es.map (fun e => (e.key, e.val))

/-- Whether the token occurs as a contiguous substring. -/
def containsTok (pat : S) : S → Bool
  | [] => hasPrefix [] pat
  | c :: rest => hasPrefix (c :: rest) pat || containsTok pat rest

/-- Whether a file content is a data payload (as opposed to metadata). -/
def isData : FileContent → Bool
  | .data _ => true
  | .meta _ => false

/-- Decidable equality for results, used to state concrete evaluations. -/
instance {ε α : Type} [DecidableEq ε] [DecidableEq α] : DecidableEq (Except ε α) :=
  fun a b =>
    match a, b with
    | .ok x, .ok y =>
      if h : x = y then .isTrue (by rw [h]) else .isFalse (fun hc => h (Except.ok.injEq x y ▸ hc))
    | .error x, .error y =>
      if h : x = y then .isTrue (by rw [h]) else .isFalse (fun hc => h (Except.error.injEq x y ▸ hc))
    | .ok _, .error _ => .isFalse (fun hc => Except.noConfusion hc)
    | .error _, .ok _ => .isFalse (fun hc => Except.noConfusion hc)

/-- A concrete store path used in concrete evaluations. -/
def defSP : S := ("/var/lib/k2d/configmaps").data

/-- Concrete resource name from the spec's scenario. -/
def cName : S := ("app-config").data

/-- Concrete namespace from the spec's scenario. -/
def cNs : S := ("default").data

/-- Concrete label map from the spec's scenario. -/
def wL : List (S × S) := [(("env").data, ("prod").data)]

/-- Concrete data map from the spec's scenario. -/
def wD : List (S × S) := [(("A").data, ("1").data), (("B").data, ("2").data)]

/-- Concrete state for the existence-check evaluation: one resource whose
namespace makes its metadata file name start with another resource's
derived stem, stored with an empty data map. -/
def c3State : Dir := StoreConfigMap [] (("q").data) (("x-a-k2dcm").data) [] [] 0

/-- Concrete state holding one resource in namespace `a` and one in
namespace `ab`. -/
def c4State : Dir :=
  StoreConfigMap
    (StoreConfigMap [] (("n").data) (("a").data) [] [(("k").data, ("v").data)] 1)
    (("m").data) (("ab").data) [] [(("k2").data, ("v2").data)] 2

/-- Concrete single-resource state for comparing listing items with point
lookups. -/
def c5State : Dir := StoreConfigMap [] cName cNs wL wD 7

/-- Concrete two-resource list used by listing witnesses. -/
def wRs : List StoredResource :=
  [⟨("n").data, ("a").data, [], [⟨("k").data, ("v").data, 1⟩], 1⟩,
   ⟨("m").data, ("b").data, [], [⟨("k2").data, ("v2").data, 2⟩], 2⟩]

/-! ## Basic string lemmas -/

theorem hpAppend (a b : S) : hasPrefix (a ++ b) a = true := by
  induction a with
  | nil => cases b <;> rfl
  | cons c s ih => simp [hasPrefix, ih]

theorem hpRefl (a : S) : hasPrefix a a = true := by
  have h := hpAppend a []
  simpa using h

theorem hpCancel (a b c : S) : hasPrefix (a ++ b) (a ++ c) = hasPrefix b c := by
  induction a with
  | nil => rfl
  | cons d s ih => simp [hasPrefix, ih]

theorem hpExists {s p : S} (h : hasPrefix s p = true) : ∃ t, s = p ++ t := by
  induction p generalizing s with
  | nil => exact ⟨s, rfl⟩
  | cons c p ih =>
    cases s with
    | nil => simp [hasPrefix] at h
    | cons d s =>
      simp only [hasPrefix, Bool.and_eq_true, beq_iff_eq] at h
      obtain ⟨rfl, h2⟩ := h
      obtain ⟨t, rfl⟩ := ih h2
      exact ⟨t, rfl⟩

theorem hpTwo {s a b : S} (ha : hasPrefix s a = true) (hb : hasPrefix s b = true) :
    hasPrefix a b = true ∨ hasPrefix b a = true := by
  induction s generalizing a b with
  | nil =>
    cases a with
    | nil => left; cases b <;> simp [hasPrefix] at hb ⊢
    | cons c a => simp [hasPrefix] at ha
  | cons c s ih =>
    cases a with
    | nil => right; cases b <;> rfl
    | cons ca a =>
      cases b with
      | nil => left; rfl
      | cons cb b =>
        simp only [hasPrefix, Bool.and_eq_true, beq_iff_eq] at ha hb
        obtain ⟨rfl, ha2⟩ := ha
        obtain ⟨rfl, hb2⟩ := hb
        rcases ih ha2 hb2 with h | h
        · left; simp [hasPrefix, h]
        · right; simp [hasPrefix, h]

theorem trimAppend (a b : S) : trimPrefix (a ++ b) a = b := by
  unfold trimPrefix
  rw [if_pos (hpAppend a b)]
  exact List.drop_left a b

theorem msufNeSepApp (k : S) : MetadataSuffix ≠ ConfigMapSeparator ++ k := by
  intro h
  have h6 := congrArg (fun l : S => l[6]?) h
  simp only at h6
  rw [List.getElem?_append_left (by decide : (6 : Nat) < ConfigMapSeparator.length)] at h6
  revert h6
  decide

theorem metaNeDataName (nm ns k : S) :
    buildConfigMapMetadataFileName nm ns ≠ buildConfigMapFilePrefix nm ns ++ k := by
  intro h
  unfold buildConfigMapMetadataFileName buildConfigMapFilePrefix at h
  rw [List.append_assoc (ns ++ dashS ++ nm) ConfigMapSeparator k] at h
  exact msufNeSepApp k (List.append_cancel_left h)

theorem hpMetaPfx (nm ns : S) :
    hasPrefix (buildConfigMapMetadataFileName nm ns) (buildConfigMapFilePrefix nm ns) = false := by
  unfold buildConfigMapMetadataFileName buildConfigMapFilePrefix
  rw [hpCancel (ns ++ dashS ++ nm) MetadataSuffix ConfigMapSeparator]
  decide

theorem gOf_msuf (r : StoredResource) : metaNameOf r = gOf r ++ MetadataSuffix := rfl

theorem gOf_sep (r : StoredResource) : pfxOf r = gOf r ++ ConfigMapSeparator := rfl

theorem sfxAppend (a b c : S) (h : hasSuffix b c = true) : hasSuffix (a ++ b) c = true := by
  unfold hasSuffix at h ⊢
  rw [List.reverse_append]
  obtain ⟨t, ht⟩ := hpExists h
  rw [ht, List.append_assoc]
  exact hpAppend _ _

theorem sfxMsufDot (x : S) : hasSuffix (x ++ MetadataSuffix) dotMetadataS = true := by
  apply sfxAppend
  decide

/-! ## Map, find and write lemmas -/

theorem anyKeyFalse {m : List (S × S)} {k : S} (h : ∀ p ∈ m, p.1 ≠ k) :
    m.any (fun p => p.1 == k) = false := by
  simp only [List.any_eq_false]
  intro p hp
  simpa using h p hp

theorem anyNameFalse {dir : Dir} {n : S} (h : ∀ f ∈ dir, f.name ≠ n) :
    dir.any (fun f => f.name == n) = false := by
  simp only [List.any_eq_false]
  intro f hf
  simpa using h f hf

theorem mapInsertFresh (m : List (S × S)) (k v : S)
    (h : m.any (fun p => p.1 == k) = false) : mapInsert m k v = m ++ [(k, v)] := by
  simp [mapInsert, h]

theorem mapLookupNone {m : List (S × S)} {k : S} (h : (mapLookup m k).isNone = true) :
    ∀ p ∈ m, p.1 ≠ k := by
  rw [Option.isNone_iff_eq_none] at h
  unfold mapLookup at h
  rw [Option.map_eq_none'] at h
  rw [List.find?_eq_none] at h
  intro p hp
  simpa using h p hp

theorem nodupB_cons {x : S} {xs : List S} (h : nodupB (x :: xs) = true) :
    xs.contains x = false ∧ nodupB xs = true := by
  revert h
  simp [nodupB]

theorem notMemOfContainsFalse {x : S} {xs : List S} (h : xs.contains x = false) : x ∉ xs := by
  intro hx
  rw [show xs.contains x = true from List.elem_iff.mpr hx] at h
  cases h

theorem mergeFresh (src : List (S × S)) : ∀ dst,
    (∀ p ∈ src, ∀ q ∈ dst, q.1 ≠ p.1) → nodupB (src.map (·.1)) = true →
    MergeMapsInPlace dst src = dst ++ src := by
  induction src with
  | nil => intro dst _ _; simp [MergeMapsInPlace]
  | cons p src ih =>
    intro dst hf hn
    obtain ⟨hc, hn'⟩ := nodupB_cons (by simpa using hn)
    show MergeMapsInPlace dst (p :: src) = dst ++ p :: src
    unfold MergeMapsInPlace
    simp only [List.foldl_cons]
    rw [mapInsertFresh dst p.1 p.2 (anyKeyFalse (fun q hq => hf p (by simp) q hq))]
    have hfresh : ∀ p' ∈ src, ∀ q ∈ dst ++ [(p.1, p.2)], q.1 ≠ p'.1 := by
      intro p' hp' q hq
      rcases List.mem_append.mp hq with hq | hq
      · exact hf p' (by simp [hp']) q hq
      · have hq' : q = (p.1, p.2) := by simpa using hq
        subst hq'
        intro he
        exact notMemOfContainsFalse hc (he ▸ List.mem_map_of_mem (·.1) hp')
    have := ih (dst ++ [(p.1, p.2)]) hfresh hn'
    unfold MergeMapsInPlace at this
    rw [this]
    simp

theorem storedLabelsEq (r : StoredResource)
    (hkeys : nodupB (r.labels.map (·.1)) = true)
    (hns : (mapLookup r.labels NamespaceNameLabelKey).isNone = true) :
    storedLabelsOf r = (NamespaceNameLabelKey, r.ns) :: r.labels := by
  unfold storedLabelsOf
  rw [mergeFresh r.labels [(NamespaceNameLabelKey, r.ns)] ?_ hkeys]
  · rfl
  · intro p hp q hq
    have hq' : q = (NamespaceNameLabelKey, r.ns) := by simpa using hq
    subst hq'
    exact fun he => mapLookupNone hns p hp he.symm

theorem findFileAppendRight {d1 : Dir} {n : S} (h : ∀ f ∈ d1, f.name ≠ n) (d2 : Dir) :
    findFile (d1 ++ d2) n = findFile d2 n := by
  induction d1 with
  | nil => rfl
  | cons f d ih =>
    simp only [List.cons_append, findFile, List.append_eq]
    rw [if_neg (h f (by simp)), ih (fun f' hf' => h f' (by simp [hf']))]

theorem findFileAppendLeft {d1 : Dir} {n : S} {f : FsFile} (h : findFile d1 n = some f) (d2 : Dir) :
    findFile (d1 ++ d2) n = some f := by
  induction d1 with
  | nil => cases h
  | cons g d ih =>
    simp only [List.cons_append, findFile] at h ⊢
    by_cases hg : g.name = n
    · rw [if_pos hg] at h ⊢; exact h
    · rw [if_neg hg] at h ⊢; exact ih h

theorem findFileOfMem {d : Dir} {x : FsFile} (hd : (d.map (·.name)).Nodup) (hx : x ∈ d) :
    findFile d x.name = some x := by
  induction d with
  | nil => cases hx
  | cons f d ih =>
    simp only [List.map_cons, List.nodup_cons] at hd
    rcases List.mem_cons.mp hx with rfl | hx
    · simp [findFile]
    · have hne : f.name ≠ x.name := by
        intro he
        exact hd.1 (he ▸ List.mem_map_of_mem (·.name) hx)
      simp only [findFile]
      rw [if_neg hne]
      exact ih hd.2 hx

theorem writeFileFresh {dir : Dir} {n : S} (h : ∀ f ∈ dir, f.name ≠ n) (c : FileContent) (t : Nat) :
    writeFile dir n c t = dir ++ [⟨n, c, t⟩] := by
  simp [writeFile, anyNameFalse h]

theorem storeDataFresh (p : S) (t : Nat) (dm : List (S × S)) : ∀ (dir : Dir),
    (∀ q ∈ dm, ∀ f ∈ dir, f.name ≠ p ++ q.1) → nodupB (dm.map (·.1)) = true →
    StoreDataMapOnDisk dir p dm t = dir ++ dm.map (fun q => ⟨p ++ q.1, .data q.2, t⟩) := by
  induction dm with
  | nil => intro dir _ _; simp [StoreDataMapOnDisk]
  | cons q dm ih =>
    intro dir hf hn
    obtain ⟨hc, hn'⟩ := nodupB_cons (by simpa using hn)
    show StoreDataMapOnDisk dir p (q :: dm) t = _
    unfold StoreDataMapOnDisk
    simp only [List.foldl_cons]
    rw [writeFileFresh (hf q (by simp)) (.data q.2) t]
    have hfresh : ∀ q' ∈ dm, ∀ f ∈ dir ++ [⟨p ++ q.1, .data q.2, t⟩], f.name ≠ p ++ q'.1 := by
      intro q' hq' f hfm
      rcases List.mem_append.mp hfm with hfm | hfm
      · exact hf q' (by simp [hq']) f hfm
      · have hq : f = ⟨p ++ q.1, .data q.2, t⟩ := by simpa using hfm
        subst hq
        intro he
        have : q.1 = q'.1 := List.append_cancel_left he
        exact notMemOfContainsFalse hc (this ▸ List.mem_map_of_mem (·.1) hq')
    have := ih (dir ++ [⟨p ++ q.1, .data q.2, t⟩]) hfresh hn'
    unfold StoreDataMapOnDisk at this
    rw [this]
    simp

theorem storeEmpty (nm ns : S) (L D : List (S × S)) (t : Nat)
    (hD : nodupB (D.map (·.1)) = true) :
    StoreConfigMap [] nm ns L D t = mkState [mkRes nm ns L D t] := by
  unfold StoreConfigMap StoreMetadataOnDisk
  have hw : writeFile [] (buildConfigMapMetadataFileName nm ns)
      (.meta (MergeMapsInPlace [(NamespaceNameLabelKey, ns)] L)) t
      = [⟨buildConfigMapMetadataFileName nm ns,
          .meta (MergeMapsInPlace [(NamespaceNameLabelKey, ns)] L), t⟩] := by
    simp [writeFile]
  dsimp only
  rw [hw]
  rw [storeDataFresh (buildConfigMapFilePrefix nm ns) t D _ ?_ hD]
  · simp only [mkState, mkRes, List.map_cons, List.map_nil, List.flatten,
      List.append_nil, filesOf, dataFilesOf, metaNameOf, pfxOf, storedLabelsOf,
      List.map_map]
    rfl
  · intro q _ f hf
    have hq : f = ⟨buildConfigMapMetadataFileName nm ns,
        .meta (MergeMapsInPlace [(NamespaceNameLabelKey, ns)] L), t⟩ := by simpa using hf
    subst hq
    exact metaNeDataName nm ns q.1

/-! ## Loop computation lemmas -/

theorem pathAnnKeyInj {k k' : S} (h : pathAnnKey k = pathAnnKey k') : k = k' :=
  List.append_cancel_left h

theorem getStepSkip (sp p : S) (cm : ConfigMap) (f : FsFile)
    (h : hasPrefix f.name p = false) : getStep sp p cm f = cm := by
  simp [getStep, h]

theorem foldGetSkip (sp p : S) (d : Dir) (cm : ConfigMap)
    (h : ∀ f ∈ d, hasPrefix f.name p = false) :
    d.foldl (getStep sp p) cm = cm := by
  induction d generalizing cm with
  | nil => rfl
  | cons f d ih =>
    simp only [List.foldl_cons]
    rw [getStepSkip sp p cm f (h f (by simp))]
    exact ih cm (fun f' hf' => h f' (by simp [hf']))

theorem getStepData (sp p k v : S) (mt : Nat) (cm : ConfigMap) :
    getStep sp p cm ⟨p ++ k, .data v, mt⟩ =
      { cm with
        data := mapInsert cm.data k v
        creationTimestamp := some mt
        annots := mapInsert cm.annots (pathAnnKey k) (pathJoin sp (p ++ k)) } := by
  simp [getStep, hpAppend, trimAppend, contentBytes, pathAnnKey]

theorem tsOfCons (e : DEntry) (es : List DEntry) (t0 : Option Nat) :
    tsOf (e :: es) t0 = tsOf es (some e.mt) := rfl

theorem foldGetData (sp p : S) (es : List DEntry) : ∀ cm : ConfigMap,
    nodupB (es.map (·.key)) = true →
    (∀ e ∈ es, cm.data.any (fun q => q.1 == e.key) = false) →
    (∀ e ∈ es, cm.annots.any (fun q => q.1 == pathAnnKey e.key) = false) →
    (dataFilesOf p es).foldl (getStep sp p) cm =
      { cm with
        data := cm.data ++ es.map (fun e => (e.key, e.val))
        annots := cm.annots ++ es.map (fun e => (pathAnnKey e.key, pathJoin sp (p ++ e.key)))
        creationTimestamp := tsOf es cm.creationTimestamp } := by
  induction es with
  | nil => intro cm _ _ _; simp [dataFilesOf, tsOf]
  | cons e es ih =>
    intro cm hn hd ha
    obtain ⟨hc, hn'⟩ := nodupB_cons (by simpa using hn)
    simp only [dataFilesOf, List.map_cons, List.foldl_cons]
    rw [getStepData sp p e.key e.val e.mt cm]
    rw [mapInsertFresh cm.data e.key e.val (hd e (by simp))]
    rw [mapInsertFresh cm.annots (pathAnnKey e.key) _ (ha e (by simp))]
    have hd' : ∀ e' ∈ es,
        (cm.data ++ [(e.key, e.val)]).any (fun q => q.1 == e'.key) = false := by
      intro e' he'
      rw [List.any_append, Bool.or_eq_false_iff]
      refine ⟨hd e' (by simp [he']), ?_⟩
      have : e.key ≠ e'.key := by
        intro hke
        exact notMemOfContainsFalse hc (hke ▸ List.mem_map_of_mem (·.key) he')
      simpa using this
    have ha' : ∀ e' ∈ es,
        (cm.annots ++ [(pathAnnKey e.key, pathJoin sp (p ++ e.key))]).any
          (fun q => q.1 == pathAnnKey e'.key) = false := by
      intro e' he'
      rw [List.any_append, Bool.or_eq_false_iff]
      refine ⟨ha e' (by simp [he']), ?_⟩
      have : pathAnnKey e.key ≠ pathAnnKey e'.key := by
        intro hke
        exact notMemOfContainsFalse hc ((pathAnnKeyInj hke) ▸ List.mem_map_of_mem (·.key) he')
      simpa using this
    rw [show dataFilesOf p es = (dataFilesOf p es) from rfl] at *
    have := ih { cm with
        data := cm.data ++ [(e.key, e.val)]
        annots := cm.annots ++ [(pathAnnKey e.key, pathJoin sp (p ++ e.key))]
        creationTimestamp := some e.mt } hn' hd' ha'
    unfold dataFilesOf at this
    rw [this]
    simp [tsOfCons, List.append_assoc]

theorem listStepSkip (p : S) (cm : ConfigMap) (f : FsFile)
    (h : hasPrefix f.name p = false) : listStep p cm f = cm := by
  simp [listStep, h]

theorem foldListSkip (p : S) (d : Dir) (cm : ConfigMap)
    (h : ∀ f ∈ d, hasPrefix f.name p = false) :
    d.foldl (listStep p) cm = cm := by
  induction d generalizing cm with
  | nil => rfl
  | cons f d ih =>
    simp only [List.foldl_cons]
    rw [listStepSkip p cm f (h f (by simp))]
    exact ih cm (fun f' hf' => h f' (by simp [hf']))

theorem listStepData (p k v : S) (mt : Nat) (cm : ConfigMap) :
    listStep p cm ⟨p ++ k, .data v, mt⟩ =
      { cm with
        data := mapInsert cm.data k v
        creationTimestamp := some mt } := by
  simp [listStep, hpAppend, trimAppend, contentBytes]

theorem foldListData (p : S) (es : List DEntry) : ∀ cm : ConfigMap,
    nodupB (es.map (·.key)) = true →
    (∀ e ∈ es, cm.data.any (fun q => q.1 == e.key) = false) →
    (dataFilesOf p es).foldl (listStep p) cm =
      { cm with
        data := cm.data ++ es.map (fun e => (e.key, e.val))
        creationTimestamp := tsOf es cm.creationTimestamp } := by
  induction es with
  | nil => intro cm _ _; simp [dataFilesOf, tsOf]
  | cons e es ih =>
    intro cm hn hd
    obtain ⟨hc, hn'⟩ := nodupB_cons (by simpa using hn)
    simp only [dataFilesOf, List.map_cons, List.foldl_cons]
    rw [listStepData p e.key e.val e.mt cm]
    rw [mapInsertFresh cm.data e.key e.val (hd e (by simp))]
    have hd' : ∀ e' ∈ es,
        (cm.data ++ [(e.key, e.val)]).any (fun q => q.1 == e'.key) = false := by
      intro e' he'
      rw [List.any_append, Bool.or_eq_false_iff]
      refine ⟨hd e' (by simp [he']), ?_⟩
      have : e.key ≠ e'.key := by
        intro hke
        exact notMemOfContainsFalse hc (hke ▸ List.mem_map_of_mem (·.key) he')
      simpa using this
    have := ih { cm with
        data := cm.data ++ [(e.key, e.val)]
        creationTimestamp := some e.mt } hn' hd'
    unfold dataFilesOf at this
    rw [this]
    simp [tsOfCons, List.append_assoc]

/-! ## Group disjointness and directory well-formedness -/

theorem pairOKB_parts {r r' : StoredResource} (h : pairOKB r r' = true) :
    hasPrefix (pfxOf r') (pfxOf r) = false ∧ hasPrefix (pfxOf r) (pfxOf r') = false ∧
    hasPrefix (metaNameOf r') (pfxOf r) = false ∧ hasPrefix (metaNameOf r) (pfxOf r') = false := by
  revert h
  simp only [pairOKB, Bool.and_eq_true, Bool.not_eq_true']
  tauto

theorem pairOKB_symm {r r' : StoredResource} (h : pairOKB r r' = true) : pairOKB r' r = true := by
  obtain ⟨h1, h2, h3, h4⟩ := pairOKB_parts h
  simp only [pairOKB, Bool.and_eq_true, Bool.not_eq_true']
  exact ⟨⟨⟨h2, h1⟩, h4⟩, h3⟩

theorem validRB_parts {r : StoredResource} (h : validRB r = true) :
    r.entries.isEmpty = false ∧ nodupB (r.entries.map (·.key)) = true ∧
    (∀ e ∈ r.entries,
      takeBefore ConfigMapSeparator (gOf r ++ ConfigMapSeparator ++ e.key) = gOf r) ∧
    takeBefore ConfigMapSeparator (gOf r ++ MetadataSuffix) = gOf r ++ MetadataSuffix ∧
    hasSuffix (gOf r) dotMetadataS = false ∧
    nodupB (r.labels.map (·.1)) = true ∧
    (mapLookup r.labels NamespaceNameLabelKey).isNone = true := by
  revert h
  simp only [validRB, Bool.and_eq_true, Bool.not_eq_true', List.all_eq_true, beq_iff_eq]
  tauto

theorem noMatchOther {r r' : StoredResource} (hpair : pairOKB r r' = true) :
    ∀ f ∈ filesOf r', hasPrefix f.name (pfxOf r) = false := by
  obtain ⟨h1, h2, h3, _⟩ := pairOKB_parts hpair
  intro f hf
  rcases List.mem_cons.mp hf with rfl | hf
  · exact h3
  · simp only [dataFilesOf, List.mem_map] at hf
    obtain ⟨e, _, rfl⟩ := hf
    simp only
    rw [Bool.eq_false_iff]
    intro hcontra
    rcases hpTwo hcontra (hpAppend (pfxOf r') e.key) with h | h
    · rw [h] at h2; cases h2
    · rw [h] at h1; cases h1

theorem noMatchOwnMeta (r : StoredResource) :
    hasPrefix (metaNameOf r) (pfxOf r) = false := hpMetaPfx r.nm r.ns

theorem nodupOfNodupB {l : List S} (h : nodupB l = true) : l.Nodup := by
  induction l with
  | nil => exact List.nodup_nil
  | cons x xs ih =>
    obtain ⟨hc, hn⟩ := nodupB_cons h
    exact List.nodup_cons.mpr ⟨notMemOfContainsFalse hc, ih hn⟩

theorem filesOfNamesNodup {r : StoredResource} (hv : validRB r = true) :
    ((filesOf r).map (·.name)).Nodup := by
  obtain ⟨_, hkeys, _, _, _, _, _⟩ := validRB_parts hv
  simp only [filesOf, List.map_cons, List.nodup_cons]
  constructor
  · intro hmem
    simp only [dataFilesOf, List.map_map, List.mem_map] at hmem
    obtain ⟨e, _, he⟩ := hmem
    exact metaNeDataName r.nm r.ns e.key he.symm
  · have : (dataFilesOf (pfxOf r) r.entries).map (·.name)
        = (r.entries.map (·.key)).map (fun k => pfxOf r ++ k) := by
      simp [dataFilesOf, List.map_map]
    rw [this]
    exact (nodupOfNodupB hkeys).map (fun a b hab => List.append_cancel_left hab)

theorem namesDisjoint {r r' : StoredResource} (hpair : pairOKB r r' = true) :
    ∀ n, n ∈ (filesOf r).map (·.name) → n ∈ (filesOf r').map (·.name) → False := by
  obtain ⟨h1, h2, h3, h4⟩ := pairOKB_parts hpair
  intro n hn hn'
  simp only [filesOf, List.map_cons, List.mem_cons, dataFilesOf, List.map_map,
    List.mem_map, Function.comp] at hn hn'
  rcases hn with rfl | ⟨e, _, rfl⟩
  · rcases hn' with he | ⟨e', _, he⟩
    · rw [gOf_msuf, gOf_msuf] at he
      have hg : gOf r = gOf r' := List.append_cancel_right he
      have : hasPrefix (pfxOf r') (pfxOf r) = true := by
        rw [gOf_sep, gOf_sep, hg]
        exact hpRefl _
      rw [this] at h1; cases h1
    · have : hasPrefix (metaNameOf r) (pfxOf r') = true := by
        rw [← he]
        exact hpAppend (pfxOf r') e'.key
      rw [this] at h4; cases h4
  · rcases hn' with he | ⟨e', _, he⟩
    · have : hasPrefix (metaNameOf r') (pfxOf r) = true := by
        rw [← he]
        exact hpAppend (pfxOf r) e.key
      rw [this] at h3; cases h3
    · have hb : hasPrefix (pfxOf r ++ e.key) (pfxOf r') = true := by
        rw [← he]
        exact hpAppend (pfxOf r') e'.key
      rcases hpTwo (hpAppend (pfxOf r) e.key) hb with h | h
      · rw [h] at h2; cases h2
      · rw [h] at h1; cases h1

theorem validListB_parts {r : StoredResource} {rest : List StoredResource}
    (h : validListB (r :: rest) = true) :
    validRB r = true ∧ (∀ r' ∈ rest, pairOKB r r' = true) ∧ validListB rest = true := by
  revert h
  simp only [validListB, Bool.and_eq_true, List.all_eq_true]
  tauto

theorem memMkState {rs : List StoredResource} {f : FsFile} :
    f ∈ mkState rs ↔ ∃ r ∈ rs, f ∈ filesOf r := by
  simp [mkState, List.mem_flatten]

theorem mkStateCons (r : StoredResource) (rest : List StoredResource) :
    mkState (r :: rest) = filesOf r ++ mkState rest := by
  simp [mkState]

theorem mkStateNodup : ∀ {rs : List StoredResource}, validListB rs = true →
    ((mkState rs).map (·.name)).Nodup := by
  intro rs
  induction rs with
  | nil => intro _; simp [mkState]
  | cons r rest ih =>
    intro hv
    obtain ⟨hr, hpairs, hrest⟩ := validListB_parts hv
    rw [mkStateCons, List.map_append]
    rw [List.nodup_append]
    refine ⟨filesOfNamesNodup hr, ih hrest, ?_⟩
    intro n hn hn'
    have : ∃ f ∈ mkState rest, f.name = n := by
      simpa [List.mem_map] using hn'
    obtain ⟨f, hf, rfl⟩ := this
    obtain ⟨r', hr', hfr'⟩ := memMkState.mp hf
    exact namesDisjoint (hpairs r' hr') f.name hn (List.mem_map_of_mem (·.name) hfr')

theorem validParts : ∀ (l1 : List StoredResource) {r : StoredResource} {l2 : List StoredResource},
    validListB (l1 ++ r :: l2) = true →
    validRB r = true ∧ (∀ r' ∈ l1, pairOKB r' r = true) ∧ (∀ r' ∈ l2, pairOKB r r' = true) := by
  intro l1
  induction l1 with
  | nil =>
    intro r l2 h
    obtain ⟨hr, hp, _⟩ := validListB_parts (by simpa using h)
    exact ⟨hr, by simp, hp⟩
  | cons r0 l1 ih =>
    intro r l2 h
    rw [List.cons_append] at h
    obtain ⟨h0, hall, hrest⟩ := validListB_parts h
    obtain ⟨hr, hl1, hl2⟩ := ih hrest
    refine ⟨hr, ?_, hl2⟩
    intro r' hr'
    rcases List.mem_cons.mp hr' with rfl | hr'
    · exact hall r (List.mem_append.mpr (Or.inr (by simp)))
    · exact hl1 r' hr'

theorem existsEntry {r : StoredResource} (hne : r.entries.isEmpty = false) :
    ∃ e, e ∈ r.entries := by
  cases hE : r.entries with
  | nil => rw [hE] at hne; simp at hne
  | cons a l => exact ⟨a, by simp [hE]⟩

/-- Master computation: on a well-formed state, `GetConfigMap` for a
present resource returns exactly the materialized object. -/
theorem getOnMkState (sp : S) (rs : List StoredResource) (r : StoredResource)
    (hv : validListB rs = true) (hr : r ∈ rs) :
    GetConfigMap sp (mkState rs) r.nm r.ns = .ok (getItemOf sp r) := by
  obtain ⟨l1, l2, rfl⟩ := List.append_of_mem hr
  obtain ⟨hrOK, hl1, hl2⟩ := validParts l1 hv
  obtain ⟨hne, hkeys, _, _, _, _, _⟩ := validRB_parts hrOK
  have hPfx : buildConfigMapFilePrefix r.nm r.ns = pfxOf r := rfl
  have hMeta : buildConfigMapMetadataFileName r.nm r.ns = metaNameOf r := rfl
  have hnodup := mkStateNodup hv
  have hmemMeta : (⟨metaNameOf r, .meta (storedLabelsOf r), r.mt0⟩ : FsFile)
      ∈ mkState (l1 ++ r :: l2) :=
    memMkState.mpr ⟨r, List.mem_append.mpr (Or.inr (by simp)), by simp [filesOf]⟩
  have hfind : findFile (mkState (l1 ++ r :: l2)) (metaNameOf r)
      = some ⟨metaNameOf r, .meta (storedLabelsOf r), r.mt0⟩ :=
    findFileOfMem hnodup hmemMeta
  obtain ⟨e0, he0⟩ := existsEntry hne
  have hany : (mkState (l1 ++ r :: l2)).any (fun f => hasPrefix f.name (pfxOf r)) = true := by
    refine List.any_eq_true.mpr ⟨⟨pfxOf r ++ e0.key, .data e0.val, e0.mt⟩, ?_, hpAppend _ _⟩
    refine memMkState.mpr ⟨r, List.mem_append.mpr (Or.inr (by simp)), ?_⟩
    simp only [filesOf, dataFilesOf, List.mem_cons, List.mem_map]
    exact Or.inr ⟨e0, he0, rfl⟩
  have hskip1 : ∀ f ∈ mkState l1, hasPrefix f.name (pfxOf r) = false := by
    intro f hf
    obtain ⟨r', hr', hfr'⟩ := memMkState.mp hf
    exact noMatchOther (pairOKB_symm (hl1 r' hr')) f hfr'
  have hskip2 : ∀ f ∈ mkState l2, hasPrefix f.name (pfxOf r) = false := by
    intro f hf
    obtain ⟨r', hr', hfr'⟩ := memMkState.mp hf
    exact noMatchOther (hl2 r' hr') f hfr'
  have hsplit : mkState (l1 ++ r :: l2) = mkState l1 ++ (filesOf r ++ mkState l2) := by
    simp [mkState]
  unfold GetConfigMap
  dsimp only
  rw [hPfx, hMeta, hany]
  simp only [if_true]
  unfold LoadMetadataFromDisk
  rw [hfind]
  dsimp only
  rw [hsplit, List.foldl_append, List.foldl_append]
  rw [foldGetSkip sp (pfxOf r) (mkState l1) _ hskip1]
  rw [show filesOf r = ⟨metaNameOf r, .meta (storedLabelsOf r), r.mt0⟩
      :: dataFilesOf (pfxOf r) r.entries from rfl]
  rw [List.foldl_cons]
  rw [getStepSkip sp (pfxOf r) _ _ (noMatchOwnMeta r)]
  rw [foldGetData sp (pfxOf r) r.entries _ hkeys (by intro e _; rfl) (by intro e _; rfl)]
  rw [foldGetSkip sp (pfxOf r) (mkState l2) _ hskip2]
  simp [getItemOf]

/-! ## Listing computation lemmas -/

theorem containsFalseOfNotMem {x : S} {xs : List S} (h : x ∉ xs) : xs.contains x = false := by
  rw [Bool.eq_false_iff]
  intro hc
  exact h (List.elem_iff.mp hc)

theorem validListB_memValid : ∀ {rs : List StoredResource}, validListB rs = true →
    ∀ r ∈ rs, validRB r = true := by
  intro rs
  induction rs with
  | nil => intro _ r hr; cases hr
  | cons r0 rest ih =>
    intro hv r hr
    obtain ⟨h0, _, hrest⟩ := validListB_parts hv
    rcases List.mem_cons.mp hr with rfl | hr
    · exact h0
    · exact ih hrest r hr

theorem neSelfAppend (g m : S) (hm : m ≠ []) : g ≠ g ++ m := by
  intro h
  have := congrArg List.length h
  simp only [List.length_append] at this
  have : m.length = 0 := by omega
  exact hm (List.length_eq_zero.mp this)

theorem gNeMeta {g g' : S} (hg : hasSuffix g dotMetadataS = false) :
    g ≠ g' ++ MetadataSuffix := by
  intro h
  rw [h, sfxMsufDot g'] at hg
  cases hg

theorem gOfNeOfPair {r r' : StoredResource} (h : pairOKB r r' = true) : gOf r ≠ gOf r' := by
  obtain ⟨h1, _, _, _⟩ := pairOKB_parts h
  intro hg
  have : hasPrefix (pfxOf r') (pfxOf r) = true := by
    rw [gOf_sep, gOf_sep, hg]
    exact hpRefl _
  rw [this] at h1
  cases h1

theorem mapTakeBeforeFilesOf {r : StoredResource} (hv : validRB r = true) :
    ((filesOf r).map (·.name)).map (takeBefore ConfigMapSeparator)
      = (gOf r ++ MetadataSuffix) :: r.entries.map (fun _ => gOf r) := by
  obtain ⟨_, _, htb, htbm, _, _, _⟩ := validRB_parts hv
  have h2 : ((dataFilesOf (pfxOf r) r.entries).map (·.name)).map (takeBefore ConfigMapSeparator)
      = r.entries.map (fun _ => gOf r) := by
    simp only [dataFilesOf, List.map_map]
    exact List.map_congr_left (fun e he => htb e he)
  calc ((filesOf r).map (·.name)).map (takeBefore ConfigMapSeparator)
      = takeBefore ConfigMapSeparator (metaNameOf r)
        :: ((dataFilesOf (pfxOf r) r.entries).map (·.name)).map (takeBefore ConfigMapSeparator) := rfl
    _ = (gOf r ++ MetadataSuffix) :: r.entries.map (fun _ => gOf r) := by
        rw [gOf_msuf, htbm, h2]

theorem dedupSeenCons {x : S} {seen : List S} (h : x ∉ seen) (l : List S) :
    dedupSeen seen (x :: l) = x :: dedupSeen (x :: seen) l := by
  show (if seen.contains x then dedupSeen seen l else x :: dedupSeen (x :: seen) l) = _
  rw [containsFalseOfNotMem h]
  rfl

theorem dedupSeenSkipRep (g : S) (es : List DEntry) : ∀ (seen tail : List S),
    g ∈ seen → dedupSeen seen (es.map (fun _ => g) ++ tail) = dedupSeen seen tail := by
  induction es with
  | nil => intro seen tail _; rfl
  | cons e es ih =>
    intro seen tail hg
    simp only [List.map_cons, List.cons_append, dedupSeen]
    rw [if_pos (List.elem_iff.mpr hg)]
    exact ih seen tail hg

theorem dedupMkState : ∀ (rs : List StoredResource) (seen : List S),
    validListB rs = true →
    (∀ r ∈ rs, (gOf r ++ MetadataSuffix) ∉ seen ∧ gOf r ∉ seen) →
    dedupSeen seen (((mkState rs).map (·.name)).map (takeBefore ConfigMapSeparator))
      = (rs.map (fun r => [gOf r ++ MetadataSuffix, gOf r])).flatten := by
  intro rs
  induction rs with
  | nil => intro seen _ _; simp [mkState, dedupSeen]
  | cons r rest ih =>
    intro seen hv hseen
    obtain ⟨hrOK, hpairs, hrest⟩ := validListB_parts hv
    obtain ⟨hne, _, _, _, hsfx, _, _⟩ := validRB_parts hrOK
    obtain ⟨hm0, hg0⟩ := hseen r (by simp)
    rw [mkStateCons, List.map_append, List.map_append, mapTakeBeforeFilesOf hrOK]
    obtain ⟨e0, he0⟩ := existsEntry hne
    obtain ⟨es', hes'⟩ : ∃ es', r.entries = e0 :: es' ∨ r.entries ≠ [] := ⟨[], Or.inr (by
      intro h; rw [h] at he0; cases he0)⟩
    have hGne : gOf r ≠ gOf r ++ MetadataSuffix := neSelfAppend _ _ (by decide)
    cases hE : r.entries with
    | nil => rw [hE] at he0; cases he0
    | cons e1 es1 =>
      simp only [List.map_cons, List.cons_append]
      rw [dedupSeenCons hm0]
      rw [dedupSeenCons (by
        simp only [List.mem_cons]
        rintro (h | h)
        · exact hGne h
        · exact hg0 h)]
      rw [dedupSeenSkipRep (gOf r) es1 _ _ (by simp)]
      rw [ih (gOf r :: (gOf r ++ MetadataSuffix) :: seen) hrest ?_]
      · simp
      · intro r' hr'
        have hp := hpairs r' hr'
        have hv' := validListB_memValid hrest r' hr'
        obtain ⟨_, _, _, _, hsfx', _, _⟩ := validRB_parts hv'
        obtain ⟨hm', hg'⟩ := hseen r' (by simp [hr'])
        constructor
        · simp only [List.mem_cons]
          rintro (h | h | h)
          · exact gNeMeta hsfx h.symm
          · exact gOfNeOfPair hp (List.append_cancel_right h).symm
          · exact hm' h
        · simp only [List.mem_cons]
          rintro (h | h | h)
          · exact gOfNeOfPair hp h.symm
          · exact gNeMeta hsfx' h
          · exact hg' h

theorem hpNsG (r : StoredResource) (A : S) (h : r.ns = A) : hasPrefix (gOf r) A = true := by
  have : gOf r = A ++ (dashS ++ r.nm) := by
    rw [← List.append_assoc, ← h]
    rfl
  rw [this]
  exact hpAppend A (dashS ++ r.nm)

theorem filterCombo (l : List S) (A sfx : S) :
    RemoveItemsWithSuffix (FilterStringsByPrefix l A) sfx
      = l.filter (fun s => hasPrefix s A && !hasSuffix s sfx) := by
  unfold RemoveItemsWithSuffix FilterStringsByPrefix
  induction l with
  | nil => rfl
  | cons x l ih =>
    simp only [List.filter_cons]
    cases hp : hasPrefix x A <;> cases hs : hasSuffix x sfx <;>
      simp [hp, hs, ih]

theorem filtersMkState : ∀ (rs : List StoredResource) (A : S),
    validListB rs = true →
    (∀ r ∈ rs, r.ns ≠ A → hasPrefix (gOf r) A = false) →
    RemoveItemsWithSuffix (FilterStringsByPrefix
        ((rs.map (fun r => [gOf r ++ MetadataSuffix, gOf r])).flatten) A) dotMetadataS
      = (rs.filter (fun r => r.ns == A)).map gOf := by
  intro rs
  induction rs with
  | nil => intro A _ _; rfl
  | cons r rest ih =>
    intro A hv hns
    obtain ⟨hrOK, _, hrest⟩ := validListB_parts hv
    obtain ⟨_, _, _, _, hsfx, _, _⟩ := validRB_parts hrOK
    have ihA := ih A hrest (fun r' h' => hns r' (by simp [h']))
    rw [filterCombo] at ihA ⊢
    simp only [List.map_cons, List.flatten_cons, List.filter_append, ihA]
    have hMetaDrop : (hasPrefix (gOf r ++ MetadataSuffix) A
        && !hasSuffix (gOf r ++ MetadataSuffix) dotMetadataS) = false := by
      rw [sfxMsufDot]
      simp
    by_cases hA : r.ns = A
    · have hg : (hasPrefix (gOf r) A && !hasSuffix (gOf r) dotMetadataS) = true := by
        rw [hpNsG r A hA, hsfx]
        rfl
      simp only [List.filter_cons, hMetaDrop, hg]
      simp [hA]
    · have hg : (hasPrefix (gOf r) A && !hasSuffix (gOf r) dotMetadataS) = false := by
        rw [hns r (by simp) hA]
        rfl
      simp only [List.filter_cons, hMetaDrop, hg]
      simp [hA]

theorem mapLookupConsSelf (k v : S) (m : List (S × S)) :
    mapLookup ((k, v) :: m) k = some v := by
  simp [mapLookup, List.find?]

/-- Master computation: one listing iteration on a well-formed state
materializes exactly the annotation-free object. -/
theorem buildItemOnMkState (rs : List StoredResource) (r : StoredResource)
    (hv : validListB rs = true) (hr : r ∈ rs) :
    buildListItem (mkState rs) (gOf r) = .ok (listItemOf r) := by
  obtain ⟨l1, l2, rfl⟩ := List.append_of_mem hr
  obtain ⟨hrOK, hl1, hl2⟩ := validParts l1 hv
  obtain ⟨hne, hkeys, _, _, _, hlk, hlns⟩ := validRB_parts hrOK
  have hnodup := mkStateNodup hv
  have hmemMeta : (⟨metaNameOf r, .meta (storedLabelsOf r), r.mt0⟩ : FsFile)
      ∈ mkState (l1 ++ r :: l2) :=
    memMkState.mpr ⟨r, List.mem_append.mpr (Or.inr (by simp)), by simp [filesOf]⟩
  have hfind : findFile (mkState (l1 ++ r :: l2)) (gOf r ++ MetadataSuffix)
      = some ⟨metaNameOf r, .meta (storedLabelsOf r), r.mt0⟩ := by
    rw [← gOf_msuf]
    exact findFileOfMem hnodup hmemMeta
  have hlook : (mapLookup (storedLabelsOf r) NamespaceNameLabelKey).getD [] = r.ns := by
    rw [storedLabelsEq r hlk hlns, mapLookupConsSelf]
    rfl
  have hskip1 : ∀ f ∈ mkState l1, hasPrefix f.name (pfxOf r) = false := by
    intro f hf
    obtain ⟨r', hr', hfr'⟩ := memMkState.mp hf
    exact noMatchOther (pairOKB_symm (hl1 r' hr')) f hfr'
  have hskip2 : ∀ f ∈ mkState l2, hasPrefix f.name (pfxOf r) = false := by
    intro f hf
    obtain ⟨r', hr', hfr'⟩ := memMkState.mp hf
    exact noMatchOther (hl2 r' hr') f hfr'
  have hsplit : mkState (l1 ++ r :: l2) = mkState l1 ++ (filesOf r ++ mkState l2) := by
    simp [mkState]
  unfold buildListItem LoadMetadataFromDisk
  rw [hfind]
  dsimp only
  rw [hlook]
  rw [show gOf r = (r.ns ++ dashS) ++ r.nm from rfl]
  rw [trimAppend (r.ns ++ dashS) r.nm]
  rw [show buildConfigMapFilePrefix r.nm r.ns = pfxOf r from rfl]
  rw [hsplit, List.foldl_append, List.foldl_append]
  rw [foldListSkip (pfxOf r) (mkState l1) _ hskip1]
  rw [show filesOf r = ⟨metaNameOf r, .meta (storedLabelsOf r), r.mt0⟩
      :: dataFilesOf (pfxOf r) r.entries from rfl]
  rw [List.foldl_cons]
  rw [listStepSkip (pfxOf r) _ _ (noMatchOwnMeta r)]
  rw [foldListData (pfxOf r) r.entries _ hkeys (by intro e _; rfl)]
  rw [foldListSkip (pfxOf r) (mkState l2) _ hskip2]
  simp [listItemOf]

theorem buildItemsOnMkState (rs : List StoredResource) (hv : validListB rs = true) :
    ∀ sub : List StoredResource, (∀ r ∈ sub, r ∈ rs) →
    buildListItems (mkState rs) (sub.map gOf) = .ok (sub.map listItemOf) := by
  intro sub
  induction sub with
  | nil => intro _; rfl
  | cons r sub ih =>
    intro hsub
    simp only [List.map_cons, buildListItems]
    rw [buildItemOnMkState rs r hv (hsub r (by simp))]
    rw [ih (fun r' h' => hsub r' (by simp [h']))]

/-- Master computation: on a well-formed state whose entries are
unambiguous for the requested namespace, `GetConfigMaps` returns exactly
the annotation-free objects of that namespace, in store order. -/
theorem listOnMkState (rs : List StoredResource) (A : S)
    (hv : validListB rs = true)
    (hns : ∀ r ∈ rs, r.ns ≠ A → hasPrefix (gOf r) A = false) :
    GetConfigMaps (mkState rs) A
      = .ok ((rs.filter (fun r => r.ns == A)).map listItemOf) := by
  unfold GetConfigMaps UniquePrefixes
  dsimp only
  rw [dedupMkState rs [] hv (by intro r _; simp)]
  rw [filtersMkState rs A hv hns]
  exact buildItemsOnMkState rs hv _ (fun r h => (List.mem_filter.mp h).1)

/-! ## Delete lemmas -/

theorem filterFilter (p q : FsFile → Bool) (l : Dir) :
    (l.filter p).filter q = l.filter (fun f => p f && q f) := by
  induction l with
  | nil => rfl
  | cons f l ih =>
    simp only [List.filter_cons]
    cases hp : p f <;> cases hq : q f <;> simp [List.filter_cons, hp, hq, ih]

theorem osRemoveOk {failR : S → Bool} {d : Dir} {n : S} {d1 : Dir}
    (h : osRemove failR d n = .ok d1) :
    d1 = d.filter (fun f => !(f.name == n)) := by
  unfold osRemove at h
  split at h
  · cases h
  · split at h
    · exact (Except.ok.injEq _ _).mp h |>.symm
    · cases h

theorem osRemoveErrKind {failR : S → Bool} {d : Dir} {n : S} {e : StoreErr}
    (h : osRemove failR d n = .error e) : e = .ioFailure := by
  unfold osRemove at h
  split at h
  · exact ((Except.error.injEq _ _).mp h).symm
  · split at h
    · cases h
    · exact ((Except.error.injEq _ _).mp h).symm

theorem removeFilesOk {failR : S → Bool} : ∀ (names : List S) (d d' : Dir),
    removeFiles failR names d = (.ok (), d') →
    d' = d.filter (fun f => !(names.contains f.name)) := by
  intro names
  induction names with
  | nil =>
    intro d d' h
    have hd : d = d' := congrArg Prod.snd h
    subst hd
    have : ∀ f : FsFile, (!(([] : List S).contains f.name)) = true := by intro f; rfl
    rw [List.filter_eq_self.mpr (fun f _ => this f)]
  | cons n names ih =>
    intro d d' h
    unfold removeFiles at h
    cases hrem : osRemove failR d n with
    | error e => rw [hrem] at h; cases congrArg Prod.fst h
    | ok d1 =>
      rw [hrem] at h
      rw [ih d1 d' h, osRemoveOk hrem, filterFilter]
      apply List.filter_congr
      intro f _
      show (!(f.name == n) && !(names.contains f.name)) = !((n :: names).contains f.name)
      rw [List.contains_cons, Bool.not_or]

theorem removeFilesNoNotFound {failR : S → Bool} : ∀ (names : List S) (d : Dir),
    (removeFiles failR names d).1 ≠ .error .resourceNotFound := by
  intro names
  induction names with
  | nil => intro d h; cases h
  | cons n names ih =>
    intro d h
    unfold removeFiles at h
    cases hrem : osRemove failR d n with
    | error e =>
      simp only [hrem] at h
      have he : e = StoreErr.resourceNotFound := (Except.error.injEq _ _).mp h
      rw [osRemoveErrKind hrem] at he
      cases he
    | ok d1 =>
      simp only [hrem] at h
      exact ih d1 h

theorem getNotFoundOfNoMatch {sp : S} {dir : Dir} {nm ns : S}
    (h : dir.any (fun f => hasPrefix f.name (buildConfigMapFilePrefix nm ns)) = false) :
    GetConfigMap sp dir nm ns = .error .resourceNotFound := by
  unfold GetConfigMap
  dsimp only
  rw [h]
  simp

theorem loadNoNotFound (dir : Dir) (n : S) :
    LoadMetadataFromDisk dir n ≠ .error .resourceNotFound := by
  intro h
  unfold LoadMetadataFromDisk at h
  cases hfind : findFile dir n with
  | none =>
    simp only [hfind] at h
    cases (Except.error.injEq _ _).mp h
  | some f =>
    simp only [hfind] at h
    cases hc : f.content with
    | data payload =>
      simp only [hc] at h
      cases (Except.error.injEq _ _).mp h
    | meta m =>
      simp only [hc] at h
      cases h

/-- On any store state, `GetConfigMap` reports NotFound exactly when no
file of the directory matches the derived file-name stem. -/
theorem getNotFoundIff (sp : S) (dir : Dir) (nm ns : S) :
    (GetConfigMap sp dir nm ns = .error .resourceNotFound)
      ↔ dir.any (fun f => hasPrefix f.name (buildConfigMapFilePrefix nm ns)) = false := by
  constructor
  · intro h
    by_contra hany
    rw [Bool.not_eq_false] at hany
    unfold GetConfigMap at h
    dsimp only at h
    rw [hany, if_pos rfl] at h
    cases hload : LoadMetadataFromDisk dir (buildConfigMapMetadataFileName nm ns) with
    | error e =>
      simp only [hload] at h
      have he : e = StoreErr.resourceNotFound := (Except.error.injEq _ _).mp h
      exact loadNoNotFound dir (buildConfigMapMetadataFileName nm ns) (by rw [hload, he])
    | ok m =>
      simp only [hload] at h
      cases h
  · exact getNotFoundOfNoMatch

/-- On any store state and any removal oracle, `DeleteConfigMap` reports
NotFound exactly when no file of the directory matches the derived
file-name stem. -/
theorem deleteNotFoundIff (failR : S → Bool) (dir : Dir) (nm ns : S) :
    ((DeleteConfigMap failR dir nm ns).1 = .error .resourceNotFound)
      ↔ dir.any (fun f => hasPrefix f.name (buildConfigMapFilePrefix nm ns)) = false := by
  constructor
  · intro h
    by_contra hany
    rw [Bool.not_eq_false] at hany
    unfold DeleteConfigMap at h
    dsimp only at h
    rw [hany, if_pos rfl] at h
    cases hrem : osRemove failR dir (buildConfigMapMetadataFileName nm ns) with
    | error e =>
      simp only [hrem] at h
      have he : e = StoreErr.resourceNotFound := (Except.error.injEq _ _).mp h
      rw [osRemoveErrKind hrem] at he
      cases he
    | ok d1 =>
      simp only [hrem] at h
      exact removeFilesNoNotFound _ d1 h
  · intro h
    unfold DeleteConfigMap
    dsimp only
    rw [h]
    rfl

/-- After a successful `DeleteConfigMap`, no file matching the stem and no
file named like the metadata file remains. -/
theorem deleteOkProps {failR : S → Bool} {dir : Dir} {nm ns : S} {st' : Dir}
    (h : DeleteConfigMap failR dir nm ns = (.ok (), st')) :
    ∀ f ∈ st', hasPrefix f.name (buildConfigMapFilePrefix nm ns) = false ∧
      f.name ≠ buildConfigMapMetadataFileName nm ns := by
  unfold DeleteConfigMap at h
  dsimp only at h
  by_cases hany : dir.any (fun f => hasPrefix f.name (buildConfigMapFilePrefix nm ns)) = true
  · rw [hany, if_pos rfl] at h
    cases hrem : osRemove failR dir (buildConfigMapMetadataFileName nm ns) with
    | error e => simp only [hrem] at h; cases congrArg Prod.fst h
    | ok d1 =>
      simp only [hrem] at h
      have hst := removeFilesOk _ d1 st' h
      have hd1 := osRemoveOk hrem
      subst hst
      subst hd1
      intro f hf
      have hf2 := List.mem_filter.mp hf
      have hf1 := List.mem_filter.mp hf2.1
      constructor
      · rw [Bool.eq_false_iff]
        intro hmatch
        have hnames : f.name ∈ (dir.filter
            (fun f => hasPrefix f.name (buildConfigMapFilePrefix nm ns))).map (·.name) :=
          List.mem_map_of_mem (·.name) (List.mem_filter.mpr ⟨hf1.1, hmatch⟩)
        rw [show ((dir.filter (fun f => hasPrefix f.name
            (buildConfigMapFilePrefix nm ns))).map (·.name)).contains f.name = true
          from List.elem_iff.mpr hnames] at hf2
        exact absurd hf2.2 (by simp)
      · intro he
        have : (f.name == buildConfigMapMetadataFileName nm ns) = true := by
          simpa using he
        rw [this] at hf1
        exact absurd hf1.2 (by simp)
  · rw [Bool.not_eq_true] at hany
    rw [hany] at h
    have h1 := congrArg Prod.fst h
    simp at h1

theorem anyFalseOfAll {dir : Dir} {p : S} (h : ∀ f ∈ dir, hasPrefix f.name p = false) :
    dir.any (fun f => hasPrefix f.name p) = false := by
  simp only [List.any_eq_false]
  intro f hf
  simp [h f hf]

/-! ## Overwrite (second Store) lemmas -/

theorem anyDataNameKey (p k : S) (es : List DEntry) :
    (dataFilesOf p es).any (fun f => f.name == p ++ k) = es.any (fun e => e.key == k) := by
  induction es with
  | nil => rfl
  | cons e es ih =>
    simp only [dataFilesOf, List.map_cons, List.any_cons] at *
    rw [ih]
    have hbk : ((p ++ e.key : S) == p ++ k) = (e.key == k) := by
      by_cases hke : e.key = k
      · simp [hke]
      · have hne : p ++ e.key ≠ p ++ k := fun hc => hke (List.append_cancel_left hc)
        simp [hke, hne]
    rw [hbk]

theorem writeFileGroupData (mf : FsFile) (p k v : S) (t : Nat) (es : List DEntry)
    (hmf : mf.name ≠ p ++ k) :
    writeFile (mf :: dataFilesOf p es) (p ++ k) (.data v) t
      = mf :: dataFilesOf p (entryInsert es k v t) := by
  unfold writeFile entryInsert
  have hmfb : (mf.name == p ++ k) = false := by simpa using hmf
  rw [List.any_cons, hmfb, Bool.false_or, anyDataNameKey p k es]
  cases hany : es.any (fun e => e.key == k)
  · simp only [Bool.false_eq_true, if_false]
    simp [dataFilesOf]
  · simp only [if_true, List.map_cons]
    rw [if_neg hmf]
    congr 1
    simp only [dataFilesOf, List.map_map]
    apply List.map_congr_left
    intro e _
    by_cases hke : e.key = k
    · simp only [Function.comp]
      rw [if_pos (by rw [hke]), if_pos hke]
    · simp only [Function.comp]
      rw [if_neg (fun hc => hke (List.append_cancel_left hc)), if_neg hke]

theorem storeDataGroup (mf : FsFile) (p : S) (t : Nat)
    (hmf : ∀ k : S, mf.name ≠ p ++ k) :
    ∀ (dm : List (S × S)) (es : List DEntry),
    StoreDataMapOnDisk (mf :: dataFilesOf p es) p dm t
      = mf :: dataFilesOf p (mergeEntries es dm t) := by
  intro dm
  induction dm with
  | nil => intro es; rfl
  | cons q dm ih =>
    intro es
    unfold StoreDataMapOnDisk mergeEntries
    simp only [List.foldl_cons]
    rw [writeFileGroupData mf p q.1 q.2 t es (hmf q.1)]
    have := ih (entryInsert es q.1 q.2 t)
    unfold StoreDataMapOnDisk mergeEntries at this
    exact this

/-- Overwriting a resource already laid out on disk rewrites its metadata
file and upserts one data file per key, leaving all other entries in
place. -/
theorem storeOnFilesOf (r : StoredResource) (L' dm : List (S × S)) (t2 : Nat) :
    StoreConfigMap (filesOf r) r.nm r.ns L' dm t2
      = filesOf ⟨r.nm, r.ns, L', mergeEntries r.entries dm t2, t2⟩ := by
  unfold StoreConfigMap StoreMetadataOnDisk
  dsimp only
  have hmeta : writeFile (filesOf r) (buildConfigMapMetadataFileName r.nm r.ns)
      (.meta (MergeMapsInPlace [(NamespaceNameLabelKey, r.ns)] L')) t2
      = ⟨metaNameOf r, .meta (MergeMapsInPlace [(NamespaceNameLabelKey, r.ns)] L'), t2⟩
        :: dataFilesOf (pfxOf r) r.entries := by
    unfold writeFile
    rw [show filesOf r = ⟨metaNameOf r, .meta (storedLabelsOf r), r.mt0⟩
        :: dataFilesOf (pfxOf r) r.entries from rfl]
    have hhead : ((⟨metaNameOf r, .meta (storedLabelsOf r), r.mt0⟩ : FsFile).name
        == buildConfigMapMetadataFileName r.nm r.ns) = true := by
      simp [metaNameOf]
    rw [List.any_cons, hhead, Bool.true_or]
    simp only [if_true, List.map_cons]
    congr 1
    · rw [if_pos (show metaNameOf r = buildConfigMapMetadataFileName r.nm r.ns from rfl)]
      rfl
    · have : ∀ f ∈ dataFilesOf (pfxOf r) r.entries,
          (if f.name = buildConfigMapMetadataFileName r.nm r.ns
            then (⟨buildConfigMapMetadataFileName r.nm r.ns,
              .meta (MergeMapsInPlace [(NamespaceNameLabelKey, r.ns)] L'), t2⟩ : FsFile)
            else f) = f := by
        intro f hf
        simp only [dataFilesOf, List.mem_map] at hf
        obtain ⟨e, _, rfl⟩ := hf
        rw [if_neg]
        exact fun hc => metaNeDataName r.nm r.ns e.key (hc.symm)
      rw [List.map_congr_left this, List.map_id']
  rw [hmeta]
  rw [show buildConfigMapFilePrefix r.nm r.ns = pfxOf r from rfl]
  rw [storeDataGroup _ (pfxOf r) t2 (fun k => fun hc => metaNeDataName r.nm r.ns k hc) dm r.entries]
  rfl

theorem findFileAppendOne {m n : S} (hne : m ≠ n) (d : Dir) (c : FileContent) (t : Nat) :
    findFile (d ++ [⟨n, c, t⟩]) m = findFile d m := by
  induction d with
  | nil =>
    show (if n = m then _ else findFile [] m) = none
    rw [if_neg (fun h => hne h.symm)]
    rfl
  | cons f d ih =>
    show (if f.name = m then some f else findFile (d ++ [⟨n, c, t⟩]) m)
      = (if f.name = m then some f else findFile d m)
    rw [ih]

theorem findFileMapWrite {m n : S} (hne : m ≠ n) (d : Dir) (c : FileContent) (t : Nat) :
    findFile (d.map (fun f => if f.name = n then ⟨n, c, t⟩ else f)) m = findFile d m := by
  induction d with
  | nil => rfl
  | cons f d ih =>
    simp only [List.map_cons]
    by_cases hf : f.name = n
    · rw [if_pos hf]
      show (if n = m then _ else _) = _
      rw [if_neg (fun h => hne h.symm)]
      show _ = (if f.name = m then some f else findFile d m)
      rw [if_neg (fun h => hne (h.symm.trans hf)), ih]
    · rw [if_neg hf]
      show (if f.name = m then some f else _) = (if f.name = m then some f else findFile d m)
      rw [ih]

theorem findFileWriteOther {m n : S} (hne : m ≠ n) (d : Dir) (c : FileContent) (t : Nat) :
    findFile (writeFile d n c t) m = findFile d m := by
  unfold writeFile
  cases hany : d.any (fun f => f.name == n)
  · simp only [Bool.false_eq_true, if_false]
    exact findFileAppendOne hne d c t
  · simp only [if_true]
    exact findFileMapWrite hne d c t

theorem findFileStoreDataOther {m p : S} (t : Nat) :
    ∀ (dm : List (S × S)) (d : Dir), (∀ q ∈ dm, m ≠ p ++ q.1) →
    findFile (StoreDataMapOnDisk d p dm t) m = findFile d m := by
  intro dm
  induction dm with
  | nil => intro d _; rfl
  | cons q dm ih =>
    intro d hq
    unfold StoreDataMapOnDisk
    simp only [List.foldl_cons]
    have := ih (writeFile d (p ++ q.1) (.data q.2) t) (fun q' h' => hq q' (by simp [h']))
    unfold StoreDataMapOnDisk at this
    rw [this]
    exact findFileWriteOther (hq q (by simp)) d (.data q.2) t

/-- Frame property of `StoreConfigMap`: any file name other than the
metadata file and the written data files is untouched. -/
theorem storeFrame (dir : Dir) (nm ns : S) (L' dm : List (S × S)) (t : Nat) {m : S}
    (hmeta : m ≠ buildConfigMapMetadataFileName nm ns)
    (hdm : ∀ q ∈ dm, m ≠ buildConfigMapFilePrefix nm ns ++ q.1) :
    findFile (StoreConfigMap dir nm ns L' dm t) m = findFile dir m := by
  unfold StoreConfigMap StoreMetadataOnDisk
  dsimp only
  rw [findFileStoreDataOther t dm _ hdm]
  exact findFileWriteOther hmeta dir _ t

theorem keysEntryInsert (es : List DEntry) (k v : S) (t : Nat) :
    (entryInsert es k v t).map (·.key)
      = if es.any (fun e => e.key == k) then es.map (·.key) else es.map (·.key) ++ [k] := by
  unfold entryInsert
  cases hany : es.any (fun e => e.key == k)
  · simp only [Bool.false_eq_true, if_false]
    simp
  · simp only [if_true, List.map_map]
    apply List.map_congr_left
    intro e _
    by_cases hke : e.key = k
    · simp only [Function.comp]
      rw [if_pos hke]
      exact hke.symm
    · simp only [Function.comp]
      rw [if_neg hke]

theorem notMemKeysOfAnyFalse {es : List DEntry} {k : S}
    (h : es.any (fun e => e.key == k) = false) : k ∉ es.map (·.key) := by
  intro hk
  obtain ⟨e, he, hek⟩ := List.mem_map.mp hk
  rw [List.any_eq_false] at h
  exact h e he (by simp [hek])

theorem nodupBAppendOne {l : List S} {x : S} (h : nodupB l = true) (hx : x ∉ l) :
    nodupB (l ++ [x]) = true := by
  induction l with
  | nil => rfl
  | cons y l ih =>
    obtain ⟨hc, hn⟩ := nodupB_cons h
    have hxy : x ≠ y := fun he => hx (by simp [he])
    show (!((l ++ [x]).contains y) && nodupB (l ++ [x])) = true
    rw [ih hn (fun hm => hx (List.mem_cons.mpr (Or.inr hm)))]
    have : (l ++ [x]).contains y = false := by
      rw [Bool.eq_false_iff]
      intro hcy
      rcases List.mem_append.mp (List.elem_iff.mp hcy) with hm | hm
      · exact absurd hm (notMemOfContainsFalse hc)
      · have hyx : y = x := by simpa using hm
        exact hxy hyx.symm
    rw [this]
    rfl

theorem nodupKeysEntryInsert {es : List DEntry} {k : S}
    (h : nodupB (es.map (·.key)) = true) (v : S) (t : Nat) :
    nodupB ((entryInsert es k v t).map (·.key)) = true := by
  rw [keysEntryInsert]
  cases hany : es.any (fun e => e.key == k)
  · simp only [Bool.false_eq_true, if_false]
    exact nodupBAppendOne h (notMemKeysOfAnyFalse hany)
  · simp only [if_true]
    exact h

theorem nodupKeysMerge (t : Nat) : ∀ (dm : List (S × S)) (es : List DEntry),
    nodupB (es.map (·.key)) = true →
    nodupB ((mergeEntries es dm t).map (·.key)) = true := by
  intro dm
  induction dm with
  | nil => intro es h; exact h
  | cons q dm ih =>
    intro es h
    unfold mergeEntries
    simp only [List.foldl_cons]
    have := ih (entryInsert es q.1 q.2 t) (nodupKeysEntryInsert h q.2 t)
    unfold mergeEntries at this
    exact this

theorem keysMergeSub (t : Nat) : ∀ (dm : List (S × S)) (es : List DEntry),
    ∀ k ∈ (mergeEntries es dm t).map (·.key), k ∈ es.map (·.key) ∨ k ∈ dm.map (·.1) := by
  intro dm
  induction dm with
  | nil => intro es k hk; exact Or.inl hk
  | cons q dm ih =>
    intro es k hk
    unfold mergeEntries at hk
    simp only [List.foldl_cons] at hk
    have hk' : k ∈ (mergeEntries (entryInsert es q.1 q.2 t) dm t).map (·.key) := hk
    rcases ih (entryInsert es q.1 q.2 t) k hk' with h | h
    · rw [keysEntryInsert] at h
      cases hany : es.any (fun e => e.key == q.1)
      · rw [hany] at h
        simp only [Bool.false_eq_true, if_false] at h
        rcases List.mem_append.mp h with hm | hm
        · exact Or.inl hm
        · right
          simp only [List.map_cons, List.mem_cons]
          exact Or.inl (by simpa using hm)
      · rw [hany] at h
        simp only [if_true] at h
        exact Or.inl h
    · right
      simp only [List.map_cons, List.mem_cons]
      exact Or.inr h

theorem entryInsertNeNil {es : List DEntry} (h : es ≠ []) (k v : S) (t : Nat) :
    entryInsert es k v t ≠ [] := by
  unfold entryInsert
  cases hany : es.any (fun e => e.key == k)
  · simp only [Bool.false_eq_true, if_false]
    simp
  · simp only [if_true]
    intro hc
    exact h (List.map_eq_nil_iff.mp hc)

theorem mergeNeNil (t : Nat) : ∀ (dm : List (S × S)) (es : List DEntry),
    es ≠ [] → mergeEntries es dm t ≠ [] := by
  intro dm
  induction dm with
  | nil => intro es h; exact h
  | cons q dm ih =>
    intro es h
    unfold mergeEntries
    simp only [List.foldl_cons]
    have := ih (entryInsert es q.1 q.2 t) (entryInsertNeNil h q.1 q.2 t)
    unfold mergeEntries at this
    exact this

theorem mapLookupAppendNe {l2 : List (S × S)} {k : S} (h2 : ∀ p ∈ l2, p.1 ≠ k) :
    ∀ l1, mapLookup (l1 ++ l2) k = mapLookup l1 k := by
  intro l1
  induction l1 with
  | nil =>
    unfold mapLookup
    rw [List.nil_append, List.find?_eq_none.mpr (fun p hp => by simpa using h2 p hp)]
    rfl
  | cons p l1 ih =>
    unfold mapLookup at *
    simp only [List.cons_append, List.find?_cons]
    cases hp : p.1 == k
    · simp only [hp]
      exact ih
    · simp only [hp]

theorem lookupMapReplaceNe {kIns k : S} (hne : kIns ≠ k) (v : S) (t : Nat) :
    ∀ es : List DEntry,
    mapLookup (dataOf (es.map (fun e => if e.key = kIns then ⟨kIns, v, t⟩ else e))) k
      = mapLookup (dataOf es) k := by
  intro es
  induction es with
  | nil => rfl
  | cons e es ih =>
    by_cases hek : e.key = kIns
    · have h1 : dataOf ((e :: es).map (fun e => if e.key = kIns then ⟨kIns, v, t⟩ else e))
          = (kIns, v) :: dataOf (es.map (fun e => if e.key = kIns then ⟨kIns, v, t⟩ else e)) := by
        simp [dataOf, hek]
      have h2 : dataOf (e :: es) = (e.key, e.val) :: dataOf es := rfl
      rw [h1, h2]
      unfold mapLookup
      simp only [List.find?_cons]
      have hb1 : ((kIns, v).1 == k) = false := by simpa using hne
      have hb2 : ((e.key, e.val).1 == k) = false := by
        simp only
        rw [hek]
        simpa using hne
      simp only [hb1, hb2]
      exact ih
    · have h1 : dataOf ((e :: es).map (fun e => if e.key = kIns then ⟨kIns, v, t⟩ else e))
          = (e.key, e.val) :: dataOf (es.map (fun e => if e.key = kIns then ⟨kIns, v, t⟩ else e)) := by
        simp [dataOf, hek]
      have h2 : dataOf (e :: es) = (e.key, e.val) :: dataOf es := rfl
      rw [h1, h2]
      unfold mapLookup
      simp only [List.find?_cons]
      cases hp : ((e.key, e.val).1 == k)
      · simp only [hp]
        exact ih
      · simp only [hp]

theorem lookupEntryInsertNe {kIns k : S} (hne : kIns ≠ k) (v : S) (t : Nat)
    (es : List DEntry) :
    mapLookup (dataOf (entryInsert es kIns v t)) k = mapLookup (dataOf es) k := by
  unfold entryInsert
  cases hany : es.any (fun e => e.key == kIns)
  · simp only [Bool.false_eq_true, if_false]
    rw [show dataOf (es ++ [⟨kIns, v, t⟩]) = dataOf es ++ [(kIns, v)] from by simp [dataOf]]
    exact mapLookupAppendNe (by
      intro p hp
      have : p = (kIns, v) := by simpa using hp
      rw [this]
      exact hne) (dataOf es)
  · simp only [if_true]
    exact lookupMapReplaceNe hne v t es

theorem lookupMergeStale {k : S} (t : Nat) : ∀ (dm : List (S × S)),
    (∀ q ∈ dm, q.1 ≠ k) → ∀ es,
    mapLookup (dataOf (mergeEntries es dm t)) k = mapLookup (dataOf es) k := by
  intro dm
  induction dm with
  | nil => intro _ es; rfl
  | cons q dm ih =>
    intro hq es
    unfold mergeEntries
    simp only [List.foldl_cons]
    have h1 := ih (fun q' h' => hq q' (by simp [h'])) (entryInsert es q.1 q.2 t)
    unfold mergeEntries at h1
    rw [h1]
    exact lookupEntryInsertNe (hq q (by simp)) q.2 t es

/-! ## Bind-extraction lemmas -/

theorem hpAppendOfHp {a p : S} (h : hasPrefix a p = true) (b : S) :
    hasPrefix (a ++ b) p = true := by
  obtain ⟨t, rfl⟩ := hpExists h
  rw [List.append_assoc]
  exact hpAppend p (t ++ b)

theorem hpPathAnnKey (k : S) : hasPrefix (pathAnnKey k) FilePathAnnotationKey = true := by
  unfold pathAnnKey
  rw [List.append_assoc FilePathAnnotationKey slashS k]
  exact hpAppend _ _

theorem trimPathAnnKey (k : S) :
    trimPrefix (pathAnnKey k) (FilePathAnnotationKey ++ slashS) = k :=
  trimAppend (FilePathAnnotationKey ++ slashS) k

theorem hpPathJoin {sp : S} (h : hasPrefix sp slashS = true) (n : S) :
    hasPrefix (pathJoin sp n) slashS = true := by
  unfold pathJoin
  exact hpAppendOfHp (hpAppendOfHp h slashS) n

theorem bindsFold (v : DEntry → S) : ∀ (es : List DEntry) (acc : List (S × S)),
    nodupB (es.map (·.key)) = true →
    (∀ e ∈ es, acc.any (fun q => q.1 == e.key) = false) →
    (es.map (fun e => (pathAnnKey e.key, v e))).foldl
      (fun binds p =>
        if hasPrefix p.1 FilePathAnnotationKey then
          mapInsert binds (trimPrefix p.1 (FilePathAnnotationKey ++ slashS)) p.2
        else binds) acc
      = acc ++ es.map (fun e => (e.key, v e)) := by
  intro es
  induction es with
  | nil => intro acc _ _; simp
  | cons e es ih =>
    intro acc hn hf
    obtain ⟨hc, hn'⟩ := nodupB_cons (by simpa using hn)
    simp only [List.map_cons, List.foldl_cons]
    rw [hpPathAnnKey e.key, if_pos rfl, trimPathAnnKey]
    rw [mapInsertFresh acc e.key (v e) (hf e (by simp))]
    have hfresh : ∀ e' ∈ es, (acc ++ [(e.key, v e)]).any (fun q => q.1 == e'.key) = false := by
      intro e' he'
      rw [List.any_append, Bool.or_eq_false_iff]
      refine ⟨hf e' (by simp [he']), ?_⟩
      have : e.key ≠ e'.key := by
        intro hke
        exact notMemOfContainsFalse hc (hke ▸ List.mem_map_of_mem (·.key) he')
      simpa using this
    rw [ih (acc ++ [(e.key, v e)]) hn' hfresh]
    simp

/-- The bind extractor on a materialized resource: one bind per data key,
pointing at the data file's path. -/
theorem bindsOfGetItem (sp : S) (r : StoredResource)
    (hkeys : nodupB (r.entries.map (·.key)) = true) :
    GetConfigMapBinds (getItemOf sp r)
      = (r.entries.map (fun e => (e.key, pathJoin sp (pfxOf r ++ e.key))), none) := by
  unfold GetConfigMapBinds getItemOf
  dsimp only
  rw [bindsFold (fun e => pathJoin sp (pfxOf r ++ e.key)) r.entries [] hkeys (fun e _ => rfl)]
  simp

/-! ## Validity construction helpers -/

theorem validRB_intro (r : StoredResource)
    (h1 : r.entries.isEmpty = false)
    (h2 : nodupB (r.entries.map (·.key)) = true)
    (h3 : ∀ e ∈ r.entries,
      takeBefore ConfigMapSeparator (gOf r ++ ConfigMapSeparator ++ e.key) = gOf r)
    (h4 : takeBefore ConfigMapSeparator (gOf r ++ MetadataSuffix) = gOf r ++ MetadataSuffix)
    (h5 : hasSuffix (gOf r) dotMetadataS = false)
    (h6 : nodupB (r.labels.map (·.1)) = true)
    (h7 : (mapLookup r.labels NamespaceNameLabelKey).isNone = true) : validRB r = true := by
  simp only [validRB, Bool.and_eq_true, Bool.not_eq_true', List.all_eq_true, beq_iff_eq]
  exact ⟨⟨⟨⟨⟨⟨h1, h2⟩, h3⟩, h4⟩, h5⟩, h6⟩, h7⟩

theorem keysOfMkRes (nm ns : S) (L D : List (S × S)) (t : Nat) :
    (mkRes nm ns L D t).entries.map (·.key) = D.map (·.1) := by
  simp [mkRes, List.map_map]

theorem dataOfMkRes (nm ns : S) (L D : List (S × S)) (t : Nat) :
    dataOf ((mkRes nm ns L D t).entries) = D := by
  simp only [mkRes, dataOf, List.map_map]
  have : ((fun (e : DEntry) => (e.key, e.val)) ∘ fun (q : S × S) => (⟨q.1, q.2, t⟩ : DEntry))
      = fun q => q := by
    funext q
    rfl
  rw [this, List.map_id']

theorem neNilOfIsEmptyFalse {α : Type} {l : List α} (h : l.isEmpty = false) : l ≠ [] := by
  intro hl
  rw [hl] at h
  cases h

theorem isEmptyFalseOfNeNil {α : Type} {l : List α} (h : l ≠ []) : l.isEmpty = false := by
  cases l with
  | nil => exact absurd rfl h
  | cons a l => rfl

theorem tsOfSameAux (t : Nat) : ∀ (es : List DEntry),
    (∀ e ∈ es, e.mt = t) → tsOf es (some t) = some t := by
  intro es
  induction es with
  | nil => intro _; rfl
  | cons e es ih =>
    intro hall
    rw [tsOfCons, hall e (by simp)]
    exact ih (fun e' he' => hall e' (by simp [he']))

theorem tsOfAllSame (t : Nat) (es : List DEntry) (t0 : Option Nat)
    (hne : es ≠ []) (hall : ∀ e ∈ es, e.mt = t) : tsOf es t0 = some t := by
  cases es with
  | nil => exact absurd rfl hne
  | cons e es =>
    rw [tsOfCons, hall e (by simp)]
    exact tsOfSameAux t es (fun e' he' => hall e' (by simp [he']))

/-! ## Claims -/

/-- C1 counterexample: as stated, the round-trip claim fails on the code.
Storing a resource with an empty label map and one data key, then reading
it back, yields a label map that is not the stored one: the store injects
the namespace-name label.  Storing an empty data map and reading it back
does not return a resource at all but NotFound. -/
theorem claimC1_counterexample :
    (GetConfigMap defSP (StoreConfigMap [] cName cNs [] [(("A").data, ("1").data)] 0)
        cName cNs).toOption.map ConfigMap.labels
      = some [(NamespaceNameLabelKey, cNs)]
    ∧ [(NamespaceNameLabelKey, cNs)] ≠ ([] : List (S × S))
    ∧ GetConfigMap defSP (StoreConfigMap [] cName cNs [] [] 0) cName cNs
      = .error .resourceNotFound := by
  refine ⟨by decide, by decide, by decide⟩

/-- C1 (amended): for a valid resource with nonempty data map `D` and
label map `L` (distinct keys, not using the reserved namespace label key,
names and keys compatible with the naming codec), `Store` into an empty
store followed by `Get` returns a resource with the same namespace and
name, label map exactly `L` preceded by the injected namespace-name label,
data map exactly `D`, path annotations derived from the data keys, and the
store time as creation timestamp. -/
theorem claimC1 (sp nm ns : S) (L D : List (S × S)) (t : Nat)
    (hv : validRB (mkRes nm ns L D t) = true) :
    GetConfigMap sp (StoreConfigMap [] nm ns L D t) nm ns
      = .ok ⟨nm, ns, (NamespaceNameLabelKey, ns) :: L,
          D.map (fun q => (pathAnnKey q.1,
            pathJoin sp (buildConfigMapFilePrefix nm ns ++ q.1))),
          D, some t⟩ := by
  obtain ⟨hne, hkeys, _, _, _, hlk, hlns⟩ := validRB_parts hv
  have hDkeys : nodupB (D.map (·.1)) = true := by
    rw [← keysOfMkRes nm ns L D t]
    exact hkeys
  rw [storeEmpty nm ns L D t hDkeys]
  have hget := getOnMkState sp [mkRes nm ns L D t] (mkRes nm ns L D t)
    (by simp [validListB, hv]) (by simp)
  rw [show (mkRes nm ns L D t).nm = nm from rfl, show (mkRes nm ns L D t).ns = ns from rfl] at hget
  rw [hget]
  unfold getItemOf
  have hlab : storedLabelsOf (mkRes nm ns L D t) = (NamespaceNameLabelKey, ns) :: L :=
    storedLabelsEq _ hlk hlns
  have hann : (mkRes nm ns L D t).entries.map
      (fun e => (pathAnnKey e.key, pathJoin sp (pfxOf (mkRes nm ns L D t) ++ e.key)))
      = D.map (fun q => (pathAnnKey q.1, pathJoin sp (buildConfigMapFilePrefix nm ns ++ q.1))) := by
    simp only [mkRes, List.map_map]
    apply List.map_congr_left
    intro q _
    rfl
  have hdata : (mkRes nm ns L D t).entries.map (fun e => (e.key, e.val)) = D :=
    dataOfMkRes nm ns L D t
  have hts : tsOf ((mkRes nm ns L D t).entries) none = some t := by
    apply tsOfAllSame t _ none (neNilOfIsEmptyFalse hne)
    intro e he
    simp only [mkRes, List.mem_map] at he
    obtain ⟨q, _, rfl⟩ := he
    rfl
  rw [hlab, hann, hdata, hts]
  rfl

/-- C1 witness: the spec's concrete scenario, stored at time 7. -/
theorem claimC1_witness :
    validRB (mkRes cName cNs wL wD 7) = true
    ∧ GetConfigMap defSP (StoreConfigMap [] cName cNs wL wD 7) cName cNs
      = .ok ⟨cName, cNs, (NamespaceNameLabelKey, cNs) :: wL,
          wD.map (fun q => (pathAnnKey q.1,
            pathJoin defSP (buildConfigMapFilePrefix cName cNs ++ q.1))),
          wD, some 7⟩ :=
  ⟨by decide, claimC1 defSP cName cNs wL wD 7 (by decide)⟩

/-- C2 counterexample: freedom from the separator token and the metadata
suffix is not enough for the naming codec to be collision-free.  The
distinct pairs (name `a`, namespace `x`) and (name `a-k2dcm`, namespace
`x`) have separator-free and suffix-free components, yet the first pair's
data-file stem is a prefix of a data file name of the second pair (key
`b`); moreover the distinct pairs (name `b-c`, namespace `a`) and (name
`c`, namespace `a-b`) derive the same metadata file name. -/
theorem claimC2_counterexample :
    (containsTok ConfigMapSeparator (("a").data) = false
      ∧ containsTok ConfigMapSeparator (("a-k2dcm").data) = false
      ∧ containsTok ConfigMapSeparator (("x").data) = false
      ∧ containsTok ConfigMapSeparator (("b").data) = false
      ∧ containsTok MetadataSuffix (("a").data) = false
      ∧ containsTok MetadataSuffix (("a-k2dcm").data) = false
      ∧ containsTok MetadataSuffix (("x").data) = false
      ∧ containsTok MetadataSuffix (("b").data) = false)
    ∧ ((("a").data, ("x").data) ≠ ((("a-k2dcm").data : S), (("x").data : S)))
    ∧ hasPrefix (buildConfigMapFilePrefix (("a-k2dcm").data) (("x").data) ++ ("b").data)
        (buildConfigMapFilePrefix (("a").data) (("x").data)) = true
    ∧ (containsTok ConfigMapSeparator (("b-c").data) = false
      ∧ containsTok ConfigMapSeparator (("c").data) = false
      ∧ containsTok ConfigMapSeparator (("a-b").data) = false
      ∧ containsTok MetadataSuffix (("b-c").data) = false
      ∧ containsTok MetadataSuffix (("c").data) = false
      ∧ containsTok MetadataSuffix (("a-b").data) = false)
    ∧ ((("b-c").data, ("a").data) ≠ ((("c").data : S), (("a-b").data : S)))
    ∧ buildConfigMapMetadataFileName (("b-c").data) (("a").data)
      = buildConfigMapMetadataFileName (("c").data) (("a-b").data) := by
  refine ⟨by decide, by decide, by decide, by decide, by decide, by decide⟩

/-- C2 (amended): for every two (name, namespace) pairs whose derived
data-file stems are incomparable (neither is a string prefix of the
other), the derived metadata file names are distinct and neither pair's
stem is a prefix of any data file name derived from the other pair. -/
theorem claimC2 (nm1 ns1 nm2 ns2 key : S)
    (h1 : hasPrefix (buildConfigMapFilePrefix nm2 ns2) (buildConfigMapFilePrefix nm1 ns1) = false)
    (h2 : hasPrefix (buildConfigMapFilePrefix nm1 ns1) (buildConfigMapFilePrefix nm2 ns2) = false) :
    buildConfigMapMetadataFileName nm1 ns1 ≠ buildConfigMapMetadataFileName nm2 ns2
    ∧ hasPrefix (buildConfigMapFilePrefix nm2 ns2 ++ key)
        (buildConfigMapFilePrefix nm1 ns1) = false
    ∧ hasPrefix (buildConfigMapFilePrefix nm1 ns1 ++ key)
        (buildConfigMapFilePrefix nm2 ns2) = false := by
  refine ⟨?_, ?_, ?_⟩
  · intro hmeta
    unfold buildConfigMapMetadataFileName at hmeta
    have hg : ns1 ++ dashS ++ nm1 = ns2 ++ dashS ++ nm2 := List.append_cancel_right hmeta
    have : hasPrefix (buildConfigMapFilePrefix nm2 ns2) (buildConfigMapFilePrefix nm1 ns1) = true := by
      unfold buildConfigMapFilePrefix
      rw [hg]
      exact hpRefl _
    rw [this] at h1
    cases h1
  · rw [Bool.eq_false_iff]
    intro hc
    rcases hpTwo hc (hpAppend (buildConfigMapFilePrefix nm2 ns2) key) with h | h
    · rw [h] at h2; cases h2
    · rw [h] at h1; cases h1
  · rw [Bool.eq_false_iff]
    intro hc
    rcases hpTwo hc (hpAppend (buildConfigMapFilePrefix nm1 ns1) key) with h | h
    · rw [h] at h1; cases h1
    · rw [h] at h2; cases h2

/-- C2 witness: the pairs (`app-config`, `default`) and (`other`,
`default`) have incomparable stems, hence distinct metadata names and
prefix-free data file names. -/
theorem claimC2_witness :
    (hasPrefix (buildConfigMapFilePrefix (("other").data) cNs)
        (buildConfigMapFilePrefix cName cNs) = false
      ∧ hasPrefix (buildConfigMapFilePrefix cName cNs)
        (buildConfigMapFilePrefix (("other").data) cNs) = false)
    ∧ (buildConfigMapMetadataFileName cName cNs
        ≠ buildConfigMapMetadataFileName (("other").data) cNs
      ∧ hasPrefix (buildConfigMapFilePrefix (("other").data) cNs ++ ("k").data)
          (buildConfigMapFilePrefix cName cNs) = false
      ∧ hasPrefix (buildConfigMapFilePrefix cName cNs ++ ("k").data)
          (buildConfigMapFilePrefix (("other").data) cNs) = false) :=
  ⟨⟨by decide, by decide⟩,
    claimC2 cName cNs (("other").data) cNs (("k").data) (by decide) (by decide)⟩

/-- C3 counterexample: the NotFound condition of the code tests every
directory entry against the stem, not only data files.  In the store state
obtained by storing the resource (name `q`, namespace `x-a-k2dcm`) with an
empty data map — all components free of the separator token and the
metadata suffix — no data file matches the stem derived for (name `a`,
namespace `x`), yet `Get("a", "x")` and `Delete("a", "x")` return an I/O
failure rather than the NotFound kind, because the foreign metadata file
matches the stem. -/
theorem claimC3_counterexample :
    c3State.all (fun f => !(isData f.content
        && hasPrefix f.name (buildConfigMapFilePrefix (("a").data) (("x").data)))) = true
    ∧ GetConfigMap defSP c3State (("a").data) (("x").data) = .error .ioFailure
    ∧ (DeleteConfigMap (fun _ => false) c3State (("a").data) (("x").data)).1
      = .error .ioFailure
    ∧ StoreErr.ioFailure ≠ StoreErr.resourceNotFound := by
  refine ⟨by decide, by decide, by decide, by decide⟩

/-- C3 (amended): `Get` and `Delete` return the NotFound kind exactly when
no file of any kind in the store directory matches the derived data-file
stem; the resource's own metadata file never matches its own stem, so the
resource's own metadata file alone never makes it exist, but another
resource's metadata file can match the stem. -/
theorem claimC3 (sp : S) (failR : S → Bool) (dir : Dir) (nm ns : S) :
    ((GetConfigMap sp dir nm ns = .error .resourceNotFound)
      ↔ dir.any (fun f => hasPrefix f.name (buildConfigMapFilePrefix nm ns)) = false)
    ∧ ((DeleteConfigMap failR dir nm ns).1 = .error .resourceNotFound
      ↔ dir.any (fun f => hasPrefix f.name (buildConfigMapFilePrefix nm ns)) = false)
    ∧ hasPrefix (buildConfigMapMetadataFileName nm ns) (buildConfigMapFilePrefix nm ns) = false :=
  ⟨getNotFoundIff sp dir nm ns, deleteNotFoundIff failR dir nm ns, hpMetaPfx nm ns⟩

/-- C4 counterexample: listing leaks across namespaces when one namespace
is a string prefix of another.  With one resource in namespace `a` and one
in namespace `ab`, `List("a")` returns both, the second with namespace
`ab`. -/
theorem claimC4_counterexample :
    (GetConfigMaps c4State (("a").data)).toOption.map (fun l => l.map (fun cm => cm.nspace))
      = some [("a").data, ("ab").data]
    ∧ (("ab").data : S) ≠ ("a").data := by
  refine ⟨by decide, by decide⟩

/-- C4 (amended): for a well-formed store state (resources valid for the
naming codec, pairwise non-colliding) in which the requested namespace is
not a string prefix of any other namespace's `namespace-name` entry,
`List(A)` returns exactly the resources stored in namespace `A`, in store
order, with accurate count and per-resource data. -/
theorem claimC4 (rs : List StoredResource) (A : S)
    (hv : validListB rs = true)
    (hns : ∀ r ∈ rs, r.ns ≠ A → hasPrefix (gOf r) A = false) :
    GetConfigMaps (mkState rs) A = .ok ((rs.filter (fun r => r.ns == A)).map listItemOf) :=
  listOnMkState rs A hv hns

/-- C4 witness: two resources in namespaces `a` and `b`; `List("a")`
returns exactly the first. -/
theorem claimC4_witness :
    (validListB wRs = true ∧ (∀ r ∈ wRs, r.ns ≠ ("a").data →
        hasPrefix (gOf r) (("a").data) = false))
    ∧ GetConfigMaps (mkState wRs) (("a").data)
      = .ok ((wRs.filter (fun r => r.ns == ("a").data)).map listItemOf) :=
  ⟨⟨by decide, by decide⟩, claimC4 wRs (("a").data) (by decide) (by decide)⟩

/-- C5 counterexample: a listing item is not equal to the result of `Get`
for the same identity on the same state: on a single-resource state the
listing item carries no annotations while `Get` synthesizes one path
annotation per data key. -/
theorem claimC5_counterexample :
    (GetConfigMaps c5State cNs).toOption.map (fun l => l.map (fun cm => cm.annots))
      = some [[]]
    ∧ (GetConfigMap defSP c5State cName cNs).toOption.map (fun cm => cm.annots)
      = some [(pathAnnKey (("A").data),
          pathJoin defSP (buildConfigMapFilePrefix cName cNs ++ ("A").data)),
        (pathAnnKey (("B").data),
          pathJoin defSP (buildConfigMapFilePrefix cName cNs ++ ("B").data))]
    ∧ ([] : List (S × S)) ≠ [(pathAnnKey (("A").data),
          pathJoin defSP (buildConfigMapFilePrefix cName cNs ++ ("A").data)),
        (pathAnnKey (("B").data),
          pathJoin defSP (buildConfigMapFilePrefix cName cNs ++ ("B").data))] := by
  refine ⟨by decide, by decide, by decide⟩

/-- C5 (amended): on a well-formed store state, every item returned by
`List(A)` agrees with `Get` for that item's identity on name, namespace,
labels, data and timestamp, but not on annotations: the listing item
carries none while `Get` synthesizes the path annotations. -/
theorem claimC5 (sp : S) (rs : List StoredResource) (A : S)
    (hv : validListB rs = true)
    (hns : ∀ r ∈ rs, r.ns ≠ A → hasPrefix (gOf r) A = false) :
    GetConfigMaps (mkState rs) A = .ok ((rs.filter (fun r => r.ns == A)).map listItemOf)
    ∧ ((rs.filter (fun r => r.ns == A)).all (fun r =>
        (GetConfigMap sp (mkState rs) r.nm r.ns == .ok (getItemOf sp r))
        && (listItemOf r == { getItemOf sp r with annots := [] }))) = true := by
  refine ⟨listOnMkState rs A hv hns, ?_⟩
  apply List.all_eq_true.mpr
  intro r hr
  rw [Bool.and_eq_true, beq_iff_eq, beq_iff_eq]
  exact ⟨getOnMkState sp rs r hv (List.mem_filter.mp hr).1, rfl⟩

/-- C5 witness: on the two-namespace state, the single `List("a")` item
matches `Get` except for its annotations. -/
theorem claimC5_witness :
    (validListB wRs = true ∧ (∀ r ∈ wRs, r.ns ≠ ("a").data →
        hasPrefix (gOf r) (("a").data) = false))
    ∧ (GetConfigMaps (mkState wRs) (("a").data)
        = .ok ((wRs.filter (fun r => r.ns == ("a").data)).map listItemOf)
      ∧ ((wRs.filter (fun r => r.ns == ("a").data)).all (fun r =>
          (GetConfigMap defSP (mkState wRs) r.nm r.ns == .ok (getItemOf defSP r))
          && (listItemOf r == { getItemOf defSP r with annots := [] }))) = true) :=
  ⟨⟨by decide, by decide⟩, claimC5 defSP wRs (("a").data) (by decide) (by decide)⟩

/-- C6 (confirmed): if `Delete(name, namespace)` returns success, then a
subsequent `Get(name, namespace)` on the resulting state returns NotFound,
and no file whose name starts with the resource's derived stem nor its
metadata file remains in the directory. -/
theorem claimC6 (sp : S) (failR : S → Bool) (dir : Dir) (nm ns : S) (st' : Dir)
    (h : DeleteConfigMap failR dir nm ns = (.ok (), st')) :
    GetConfigMap sp st' nm ns = .error .resourceNotFound
    ∧ st'.all (fun f => !hasPrefix f.name (buildConfigMapFilePrefix nm ns)
        && !(f.name == buildConfigMapMetadataFileName nm ns)) = true := by
  have hp := deleteOkProps h
  constructor
  · exact getNotFoundOfNoMatch (anyFalseOfAll (fun f hf => (hp f hf).1))
  · apply List.all_eq_true.mpr
    intro f hf
    rw [Bool.and_eq_true]
    constructor
    · rw [(hp f hf).1]
      rfl
    · have : (f.name == buildConfigMapMetadataFileName nm ns) = false := by
        simpa using (hp f hf).2
      rw [this]
      rfl

/-- C6 witness: deleting the only stored resource empties the directory
and makes `Get` report NotFound. -/
theorem claimC6_witness :
    DeleteConfigMap (fun _ => false)
        (StoreConfigMap [] (("n").data) (("a").data) [] [(("k").data, ("v").data)] 1)
        (("n").data) (("a").data) = (.ok (), ([] : Dir))
    ∧ (GetConfigMap defSP [] (("n").data) (("a").data) = .error .resourceNotFound
      ∧ ([] : Dir).all (fun f => !hasPrefix f.name
            (buildConfigMapFilePrefix (("n").data) (("a").data))
          && !(f.name == buildConfigMapMetadataFileName (("n").data) (("a").data))) = true) :=
  ⟨by decide, claimC6 defSP (fun _ => false)
    (StoreConfigMap [] (("n").data) (("a").data) [] [(("k").data, ("v").data)] 1)
    (("n").data) (("a").data) [] (by decide)⟩

/-- C7 (confirmed): when at least one file matches the resource's stem but
removing the metadata file fails, `Delete` surfaces the failure and the
directory state is completely unchanged — no data file is removed. -/
theorem claimC7 (failR : S → Bool) (dir : Dir) (nm ns : S)
    (hmatch : dir.any (fun f => hasPrefix f.name (buildConfigMapFilePrefix nm ns)) = true)
    (hfail : failR (buildConfigMapMetadataFileName nm ns) = true) :
    DeleteConfigMap failR dir nm ns = (.error .ioFailure, dir) := by
  unfold DeleteConfigMap
  dsimp only
  rw [hmatch, if_pos rfl]
  unfold osRemove
  rw [hfail, if_pos rfl]

/-- C7 witness: with an oracle failing exactly the metadata file's
removal, deleting a stored resource fails and leaves the state intact. -/
theorem claimC7_witness :
    ((StoreConfigMap [] (("n").data) (("a").data) [] [(("k").data, ("v").data)] 1).any
        (fun f => hasPrefix f.name (buildConfigMapFilePrefix (("n").data) (("a").data))) = true
      ∧ (fun n => n == buildConfigMapMetadataFileName (("n").data) (("a").data))
          (buildConfigMapMetadataFileName (("n").data) (("a").data)) = true)
    ∧ DeleteConfigMap (fun n => n == buildConfigMapMetadataFileName (("n").data) (("a").data))
        (StoreConfigMap [] (("n").data) (("a").data) [] [(("k").data, ("v").data)] 1)
        (("n").data) (("a").data)
      = (.error .ioFailure,
          StoreConfigMap [] (("n").data) (("a").data) [] [(("k").data, ("v").data)] 1) :=
  ⟨⟨by decide, by decide⟩,
    claimC7 (fun n => n == buildConfigMapMetadataFileName (("n").data) (("a").data))
      (StoreConfigMap [] (("n").data) (("a").data) [] [(("k").data, ("v").data)] 1)
      (("n").data) (("a").data) (by decide) (by decide)⟩

/-- C8 (confirmed): calling `Store` again for the same identity writes
only the metadata file and the files for the new data map's keys: the data
file of every stale key (present before, absent from the new map) is
bit-identical afterwards, any file name other than the written ones is
untouched, and the stale key remains readable through `Get` with its
original value. -/
theorem claimC8 (sp nm ns : S) (L D L' D' : List (S × S)) (t1 t2 : Nat) (k other : S)
    (hv : validRB (mkRes nm ns L D t1) = true)
    (htb : ∀ q ∈ D', takeBefore ConfigMapSeparator
        (ns ++ dashS ++ nm ++ ConfigMapSeparator ++ q.1) = ns ++ dashS ++ nm)
    (hL' : nodupB (L'.map (·.1)) = true)
    (hL'ns : (mapLookup L' NamespaceNameLabelKey).isNone = true)
    (hk : k ∈ D.map (·.1))
    (hk' : ∀ q ∈ D', q.1 ≠ k)
    (hother : other ≠ buildConfigMapMetadataFileName nm ns)
    (hother' : ∀ q ∈ D', other ≠ buildConfigMapFilePrefix nm ns ++ q.1) :
    findFile (StoreConfigMap (StoreConfigMap [] nm ns L D t1) nm ns L' D' t2)
        (buildConfigMapFilePrefix nm ns ++ k)
      = findFile (StoreConfigMap [] nm ns L D t1) (buildConfigMapFilePrefix nm ns ++ k)
    ∧ findFile (StoreConfigMap (StoreConfigMap [] nm ns L D t1) nm ns L' D' t2) other
      = findFile (StoreConfigMap [] nm ns L D t1) other
    ∧ (GetConfigMap sp (StoreConfigMap (StoreConfigMap [] nm ns L D t1) nm ns L' D' t2)
          nm ns).toOption.map (fun cm => mapLookup cm.data k)
      = some (mapLookup D k) := by
  obtain ⟨hne, hkeys, htbD, htbm, hsfx, _, _⟩ := validRB_parts hv
  refine ⟨?_, ?_, ?_⟩
  · exact storeFrame _ nm ns L' D' t2
      (fun hc => metaNeDataName nm ns k hc.symm)
      (fun q hq => fun hc => hk' q hq (List.append_cancel_left hc).symm)
  · exact storeFrame _ nm ns L' D' t2 hother hother'
  · have hDkeys : nodupB (D.map (·.1)) = true := by
      rw [← keysOfMkRes nm ns L D t1]
      exact hkeys
    rw [storeEmpty nm ns L D t1 hDkeys]
    rw [show mkState [mkRes nm ns L D t1] = filesOf (mkRes nm ns L D t1) from by simp [mkState]]
    have hstore := storeOnFilesOf (mkRes nm ns L D t1) L' D' t2
    rw [show (mkRes nm ns L D t1).nm = nm from rfl,
      show (mkRes nm ns L D t1).ns = ns from rfl] at hstore
    rw [hstore]
    have hvalid : validRB (⟨nm, ns, L',
        mergeEntries (mkRes nm ns L D t1).entries D' t2, t2⟩ : StoredResource) = true := by
      apply validRB_intro
      · exact isEmptyFalseOfNeNil (mergeNeNil t2 D' _ (neNilOfIsEmptyFalse hne))
      · exact nodupKeysMerge t2 D' _ hkeys
      · intro e he
        rcases keysMergeSub t2 D' _ e.key (List.mem_map_of_mem (·.key) he) with h | h
        · obtain ⟨e', he', hkey⟩ := List.mem_map.mp h
          have := htbD e' he'
          rw [hkey] at this
          exact this
        · obtain ⟨q, hq, hkey⟩ := List.mem_map.mp h
          have := htb q hq
          rw [hkey] at this
          exact this
      · exact htbm
      · exact hsfx
      · exact hL'
      · exact hL'ns
    have hget := getOnMkState sp
      [⟨nm, ns, L', mergeEntries (mkRes nm ns L D t1).entries D' t2, t2⟩]
      ⟨nm, ns, L', mergeEntries (mkRes nm ns L D t1).entries D' t2, t2⟩
      (by simp [validListB, hvalid]) (by simp)
    rw [show mkState [(⟨nm, ns, L', mergeEntries (mkRes nm ns L D t1).entries D' t2, t2⟩
        : StoredResource)]
      = filesOf ⟨nm, ns, L', mergeEntries (mkRes nm ns L D t1).entries D' t2, t2⟩ from by
        simp [mkState]] at hget
    rw [hget]
    have hlook : mapLookup (getItemOf sp ⟨nm, ns, L',
        mergeEntries (mkRes nm ns L D t1).entries D' t2, t2⟩).data k = mapLookup D k := by
      show mapLookup (dataOf (mergeEntries (mkRes nm ns L D t1).entries D' t2)) k
        = mapLookup D k
      rw [lookupMergeStale t2 D' hk' (mkRes nm ns L D t1).entries]
      rw [dataOfMkRes]
    show some (mapLookup (getItemOf sp ⟨nm, ns, L',
        mergeEntries (mkRes nm ns L D t1).entries D' t2, t2⟩).data k) = some (mapLookup D k)
    rw [hlook]

/-- C8 witness: storing keys `A`, `B` then overwriting only `A` leaves
`B`'s file untouched and `B` readable with its original value. -/
theorem claimC8_witness :
    (validRB (mkRes cName cNs [] wD 1) = true
      ∧ (∀ q ∈ [((("A").data : S), (("9").data : S))], takeBefore ConfigMapSeparator
          (cNs ++ dashS ++ cName ++ ConfigMapSeparator ++ q.1) = cNs ++ dashS ++ cName)
      ∧ (∀ q ∈ [((("A").data : S), (("9").data : S))], q.1 ≠ ("B").data)
      ∧ (("zzz").data : S) ≠ buildConfigMapMetadataFileName cName cNs
      ∧ (∀ q ∈ [((("A").data : S), (("9").data : S))],
          (("zzz").data : S) ≠ buildConfigMapFilePrefix cName cNs ++ q.1))
    ∧ (findFile (StoreConfigMap (StoreConfigMap [] cName cNs [] wD 1) cName cNs []
          [(("A").data, ("9").data)] 2) (buildConfigMapFilePrefix cName cNs ++ ("B").data)
        = findFile (StoreConfigMap [] cName cNs [] wD 1)
            (buildConfigMapFilePrefix cName cNs ++ ("B").data)
      ∧ findFile (StoreConfigMap (StoreConfigMap [] cName cNs [] wD 1) cName cNs []
          [(("A").data, ("9").data)] 2) (("zzz").data)
        = findFile (StoreConfigMap [] cName cNs [] wD 1) (("zzz").data)
      ∧ (GetConfigMap defSP (StoreConfigMap (StoreConfigMap [] cName cNs [] wD 1) cName cNs []
            [(("A").data, ("9").data)] 2) cName cNs).toOption.map
          (fun cm => mapLookup cm.data (("B").data))
        = some (mapLookup wD (("B").data))) :=
  ⟨⟨by decide, by decide, by decide, by decide, by decide⟩,
    claimC8 defSP cName cNs [] wD [] [(("A").data, ("9").data)] 1 2 (("B").data) (("zzz").data)
      (by decide) (by decide) (by decide) (by decide) (by decide) (by decide)
      (by decide) (by decide)⟩

/-- C9 (confirmed): for every stored resource on a well-formed state,
`Get` returns exactly one path annotation per data key — the reserved
prefix, a slash, and the key — and the bind extractor maps each key to
that annotation's value, an absolute path (the store path being absolute)
at which the store holds a data file whose content is that key's stored
value. -/
theorem claimC9 (sp : S) (rs : List StoredResource) (r : StoredResource)
    (hv : validListB rs = true) (hr : r ∈ rs)
    (hsp : hasPrefix sp slashS = true) :
    GetConfigMap sp (mkState rs) r.nm r.ns = .ok (getItemOf sp r)
    ∧ (getItemOf sp r).annots
        = r.entries.map (fun e => (pathAnnKey e.key, pathJoin sp (pfxOf r ++ e.key)))
    ∧ (GetConfigMapBinds (getItemOf sp r)).1
        = r.entries.map (fun e => (e.key, pathJoin sp (pfxOf r ++ e.key)))
    ∧ r.entries.all (fun e =>
        (findFile (mkState rs) (pfxOf r ++ e.key)
            == some ⟨pfxOf r ++ e.key, .data e.val, e.mt⟩)
        && hasPrefix (pathJoin sp (pfxOf r ++ e.key)) slashS) = true := by
  have hrOK := validListB_memValid hv r hr
  obtain ⟨_, hkeys, _, _, _, _, _⟩ := validRB_parts hrOK
  refine ⟨getOnMkState sp rs r hv hr, rfl, ?_, ?_⟩
  · exact congrArg Prod.fst (bindsOfGetItem sp r hkeys)
  · apply List.all_eq_true.mpr
    intro e he
    rw [Bool.and_eq_true, beq_iff_eq]
    refine ⟨?_, hpPathJoin hsp _⟩
    exact findFileOfMem (mkStateNodup hv) (memMkState.mpr ⟨r, hr, by
      simp only [filesOf, dataFilesOf, List.mem_cons, List.mem_map]
      exact Or.inr ⟨e, he, rfl⟩⟩)

/-- C9 witness: the first resource of the two-namespace state. -/
theorem claimC9_witness :
    (validListB wRs = true
      ∧ (⟨("n").data, ("a").data, [], [⟨("k").data, ("v").data, 1⟩], 1⟩ : StoredResource) ∈ wRs
      ∧ hasPrefix defSP slashS = true)
    ∧ (GetConfigMap defSP (mkState wRs)
          (⟨("n").data, ("a").data, [], [⟨("k").data, ("v").data, 1⟩], 1⟩ : StoredResource).nm
          (⟨("n").data, ("a").data, [], [⟨("k").data, ("v").data, 1⟩], 1⟩ : StoredResource).ns
        = .ok (getItemOf defSP ⟨("n").data, ("a").data, [], [⟨("k").data, ("v").data, 1⟩], 1⟩)
      ∧ (getItemOf defSP
          (⟨("n").data, ("a").data, [], [⟨("k").data, ("v").data, 1⟩], 1⟩ : StoredResource)).annots
        = ([⟨("k").data, ("v").data, 1⟩] : List DEntry).map (fun e => (pathAnnKey e.key,
            pathJoin defSP (pfxOf ⟨("n").data, ("a").data, [],
              [⟨("k").data, ("v").data, 1⟩], 1⟩ ++ e.key)))
      ∧ (GetConfigMapBinds (getItemOf defSP
          ⟨("n").data, ("a").data, [], [⟨("k").data, ("v").data, 1⟩], 1⟩)).1
        = ([⟨("k").data, ("v").data, 1⟩] : List DEntry).map (fun e => (e.key,
            pathJoin defSP (pfxOf ⟨("n").data, ("a").data, [],
              [⟨("k").data, ("v").data, 1⟩], 1⟩ ++ e.key)))
      ∧ ([⟨("k").data, ("v").data, 1⟩] : List DEntry).all (fun e =>
          (findFile (mkState wRs) (pfxOf ⟨("n").data, ("a").data, [],
              [⟨("k").data, ("v").data, 1⟩], 1⟩ ++ e.key)
            == some ⟨pfxOf ⟨("n").data, ("a").data, [],
              [⟨("k").data, ("v").data, 1⟩], 1⟩ ++ e.key, .data e.val, e.mt⟩)
          && hasPrefix (pathJoin defSP (pfxOf ⟨("n").data, ("a").data, [],
              [⟨("k").data, ("v").data, 1⟩], 1⟩ ++ e.key)) slashS) = true) :=
  ⟨⟨by decide, by decide, by decide⟩,
    claimC9 defSP wRs ⟨("n").data, ("a").data, [], [⟨("k").data, ("v").data, 1⟩], 1⟩
      (by decide) (by decide) (by decide)⟩

/-- C10 (confirmed): the bind extractor is total — for every resource
object, whatever its annotation map, `GetConfigMapBinds` reports no
error. -/
theorem claimC10 (cm : ConfigMap) : (GetConfigMapBinds cm).2 = none := rfl

end K2d
